import Mathlib

/-!
A verification of `maxflow_mincut.cc`: a Ford–Fulkerson maximum-flow
computation with BFS path search (Edmonds–Karp style) on a fixed
six-node residual graph, followed by extraction of the minimum s-t cut
from the saturated residual graph.

The embedding mirrors the C++ source: machine `int` values become `Int`,
the `residualGraphEdge`/`residualGraphNode` classes become structures,
and the `vector` containers indexed by node id become the fixed-size
container `Vec6` (all indexing in the source is by node ids below
`NODE_COUNT`, so the containers have fixed length 6).  The BFS queue
loop and the augmentation loop become fuel-indexed structural recursions
(fuel exhaustion, returned as `none` or handled by sufficiency lemmas,
models the possibility of divergence; we prove the fuel used is always
sufficient).
-/

/-- `NODE_COUNT` from the source: the graph has six nodes. -/
abbrev NODE_COUNT : Nat := 6

/-- Node ids: integers in `[0, NODE_COUNT)`. -/
abbrev Node : Type := Fin NODE_COUNT

/-- `SOURCE_NODE_ID` (node `s`). -/
def SOURCE_NODE_ID : Node := 0

/-- `TARGET_NODE_ID` (node `t`). -/
def TARGET_NODE_ID : Node := 5

/-- `INVALID_PARENT` sentinel for "no parent in the augmenting path". -/
def INVALID_PARENT : Int := -1

/-- `INT_MAX` from `<climits>` on a 32-bit `int`. -/
def INT_MAX : Int := 2147483647

/-- A container with one slot per node id: the shape of every
`vector` the source indexes by node ids `0..5`. -/
structure Vec6 (α : Type) where
  e0 : α
  e1 : α
  e2 : α
  e3 : α
  e4 : α
  e5 : α
deriving DecidableEq

/-- Indexing a `Vec6` by a node id (`operator[]` / `at`). -/
def Vec6.get {α : Type} (r : Vec6 α) (i : Node) : α :=
  match i with
  | ⟨0, _⟩ => r.e0
  | ⟨1, _⟩ => r.e1
  | ⟨2, _⟩ => r.e2
  | ⟨3, _⟩ => r.e3
  | ⟨4, _⟩ => r.e4
  | ⟨5, _⟩ => r.e5

/-- Writing one slot of a `Vec6`. -/
def Vec6.set {α : Type} (r : Vec6 α) (i : Node) (a : α) : Vec6 α :=
  match i with
  | ⟨0, _⟩ => { r with e0 := a }
  | ⟨1, _⟩ => { r with e1 := a }
  | ⟨2, _⟩ => { r with e2 := a }
  | ⟨3, _⟩ => { r with e3 := a }
  | ⟨4, _⟩ => { r with e4 := a }
  | ⟨5, _⟩ => { r with e5 := a }

/-- Building a `Vec6` from a function on node ids (the
initialization loops of the source). -/
def Vec6.ofFn {α : Type} (f : Node → α) : Vec6 α :=
  ⟨f 0, f 1, f 2, f 3, f 4, f 5⟩

/-- The `residualGraphEdge` class: a residual capacity and the original
capacity of an edge. -/
structure residualGraphEdge where
  residual_capacity_ : Int
  original_capacity_ : Int
deriving DecidableEq

/-- The `residualGraphNode` class: a node id and the id of its parent in
the current augmenting path. -/
structure residualGraphNode where
  id_ : Int
  parent_id_ : Int
deriving DecidableEq

/-- The residual graph: a `NODE_COUNT × NODE_COUNT` table of edges
(`vector<vector<residualGraphEdge>>`). -/
abbrev Graph : Type := Vec6 (Vec6 residualGraphEdge)

/-- The `augmentingPath` buffer: one `residualGraphNode` per node id. -/
abbrev Parents : Type := Vec6 residualGraphNode

/-- `graph[u][v].getResidualCapacity()`. -/
def resCap (g : Graph) (u v : Node) : Int :=
  ((g.get u).get v).residual_capacity_

/-- `graph[u][v].getOriginalCapacity()`. -/
def origCap (g : Graph) (u v : Node) : Int :=
  ((g.get u).get v).original_capacity_

/-- State of the BFS in `bfs`: the `trav` visited array, the
parent-tracking output array, and the work queue `bfs_q`. -/
structure BfsSt where
  trav : Vec6 Bool
  par : Parents
  q : List Node
deriving DecidableEq

/-- One check of the inner `for(next_node = 0; ...)` loop body of `bfs`:
an unvisited node reachable over an edge of positive residual capacity is
marked visited, its parent pointer is set to the dequeued node, and it is
enqueued. -/
def bfsScanStep (g : Graph) (node_id : Node) (s : BfsSt) (next : Node) : BfsSt :=
  if s.trav.get next = false ∧ 0 < resCap g node_id next then
    { trav := s.trav.set next true
      par := s.par.set next ⟨(s.par.get next).id_, (node_id.val : Int)⟩
      q := s.q ++ [next] }
  else s

/-- The inner `for(next_node = 0; next_node < NODE_COUNT; next_node++)`
loop of `bfs` for one dequeued node. -/
def bfsScan (g : Graph) (node_id : Node) (s : BfsSt) : BfsSt :=
  (List.finRange NODE_COUNT).foldl (bfsScanStep g node_id) s

/-- The `while(!bfs_q.empty())` loop of `bfs`, as a fuel-indexed
recursion.  Lemma `bfsLoop_exits` shows `BFS_FUEL` is always enough for
the queue to empty, so the fuel-out case is never the exit taken. -/
def bfsLoop (g : Graph) : Nat → BfsSt → BfsSt
  | 0, s => s
  | fuel + 1, s =>
    match s.q with
    | [] => s
    | node_id :: rest => bfsLoop g fuel (bfsScan g node_id { s with q := rest })

/-- Fuel for the BFS queue loop: each dequeue consumes 1 and each node is
enqueued at most once, so `2 * NODE_COUNT + 1` steps always suffice. -/
def BFS_FUEL : Nat := 2 * NODE_COUNT + 1

/-- Initial BFS state: every node unvisited, then the source marked
visited and pushed on the queue. -/
def bfsInit (ap : Parents) : BfsSt :=
  { trav := (Vec6.ofFn (fun _ => false)).set SOURCE_NODE_ID true
    par := ap
    q := [SOURCE_NODE_ID] }

/-- A complete run of `bfs`: the final `trav` array, parent array and
(empty) queue. -/
def bfsRun (g : Graph) (ap : Parents) : BfsSt :=
  bfsLoop g BFS_FUEL (bfsInit ap)

/-- The `augmentingPath` buffer as initialized at the start of
`fordFulkerson`: node `i` with parent `INVALID_PARENT`. -/
def initParents : Parents := Vec6.ofFn (fun i => ⟨(i.val : Int), INVALID_PARENT⟩)

/-- Return value of `bfs`: `trav.at(TARGET_NODE_ID)`. -/
def bfsFound (g : Graph) (ap : Parents) : Bool :=
  (bfsRun g ap).trav.get TARGET_NODE_ID

/-- The `sPath`/`tPath` partition buffers filled at the end of `bfs` when
both are supplied: node ids in increasing order, the visited ones in the
first list and the unvisited ones in the second.  (`findMinCut` calls
`bfs` with no parent-tracking buffer; the parent argument of `bfsRun`
does not influence `trav`, which we prove as `bfsRun_trav_indep`.) -/
def bfsPartition (g : Graph) : List Node × List Node :=
  ((List.finRange NODE_COUNT).filter (fun i => (bfsRun g initParents).trav.get i),
   (List.finRange NODE_COUNT).filter (fun i => !(bfsRun g initParents).trav.get i))

/-- Conversion of a stored parent id back to a node index, recording the
range check `[0, NODE_COUNT)` that C++ array indexing silently assumes. -/
def toNode (i : Int) : Option Node :=
  if h : 0 ≤ i ∧ i < (NODE_COUNT : Int) then some ⟨i.toNat, by omega⟩ else none

/-- The parent-chain walk `for(node_id = TARGET_NODE_ID; node_id != SOURCE_NODE_ID;)`
of `fordFulkerson`, collecting the `(parent, child)` edges of the
augmenting path from the target back to the source.  The C++ loop has no
bound; the fuel (always `NODE_COUNT`) models its possible divergence or
out-of-range indexing as `none`, and we prove the walk always succeeds
when `bfs` has found the target. -/
def pathEdges (ap : Parents) : Nat → Node → Option (List (Node × Node))
  | 0, node =>
    if node = SOURCE_NODE_ID then some [] else none
  | fuel + 1, node =>
    if node = SOURCE_NODE_ID then some []
    else
      match toNode (ap.get node).parent_id_ with
      | none => none
      | some p =>
        match pathEdges ap fuel p with
        | none => none
        | some rest => some ((p, node) :: rest)

/-- The first chain walk of `fordFulkerson`: `min_flow_in_path` starts at
`INT_MAX` and is lowered to each smaller residual capacity seen. -/
def minFlowInPath (g : Graph) (edges : List (Node × Node)) : Int :=
  edges.foldl
    (fun m e => if resCap g e.1 e.2 < m then resCap g e.1 e.2 else m)
    INT_MAX

/-- `setResidualCapacity` on one entry of the adjacency matrix. -/
def setResidual (g : Graph) (u v : Node) (r : Int) : Graph :=
  g.set u ((g.get u).set v ⟨r, origCap g u v⟩)

/-- One iteration of the second chain walk: subtract the bottleneck from
the path edge and add it to the paired back edge (reading the back edge
after the first write, as the C++ does). -/
def augmentEdge (delta : Int) (g : Graph) (e : Node × Node) : Graph :=
  let g1 := setResidual g e.1 e.2 (resCap g e.1 e.2 - delta)
  setResidual g1 e.2 e.1 (resCap g1 e.2 e.1 + delta)

/-- The residual updates of the second chain walk over the whole path. -/
def augment (g : Graph) (delta : Int) (edges : List (Node × Node)) : Graph :=
  edges.foldl (augmentEdge delta) g

/-- The parent resets of the second chain walk: each path node's parent
pointer goes back to `INVALID_PARENT`. -/
def resetParents (ap : Parents) (edges : List (Node × Node)) : Parents :=
  edges.foldl (fun ap e => ap.set e.2 ⟨(ap.get e.2).id_, INVALID_PARENT⟩) ap

/-- State of the `fordFulkerson` main loop: the residual graph (mutated
in place in C++), the reused `augmentingPath` buffer, and `max_flow`. -/
structure FFSt where
  graph : Graph
  augmentingPath : Parents
  max_flow : Int
deriving DecidableEq

/-- One iteration body of the `fordFulkerson` loop, given the edges of
the augmenting path found by `bfs`: both chain walks (bottleneck, then
residual updates and parent resets) and the `max_flow` update. -/
def ffIter (st : FFSt) (edges : List (Node × Node)) : FFSt :=
  { graph := augment st.graph (minFlowInPath st.graph edges) edges
    augmentingPath := resetParents (bfsRun st.graph st.augmentingPath).par edges
    max_flow := st.max_flow + minFlowInPath st.graph edges }

/-- The `while(bfs(...))` loop of `fordFulkerson`, as a fuel-indexed
recursion.  Each iteration runs `bfs` with parent tracking, walks the
parent chain for the bottleneck, and walks it again updating residual
capacities and resetting parent pointers.  `none` models fuel exhaustion
or a stuck chain walk; the result is `(max_flow, final residual graph)`. -/
def ffLoop : Nat → FFSt → Option (Int × Graph)
  | 0, st =>
    if (bfsRun st.graph st.augmentingPath).trav.get TARGET_NODE_ID = true then none
    else some (st.max_flow, st.graph)
  | fuel + 1, st =>
    if (bfsRun st.graph st.augmentingPath).trav.get TARGET_NODE_ID = true then
      match pathEdges (bfsRun st.graph st.augmentingPath).par NODE_COUNT TARGET_NODE_ID with
      | none => none
      | some edges => ffLoop fuel (ffIter st edges)
    else some (st.max_flow, st.graph)

/-- Initial state of `fordFulkerson` on a residual graph. -/
def ffInit (g : Graph) : FFSt :=
  { graph := g, augmentingPath := initParents, max_flow := 0 }

/-- `fordFulkerson`: run the augmentation loop from flow `0` with a fresh
parent buffer.  The C++ function returns the flow and leaves the mutated
residual graph in its by-reference argument; we return both. -/
def fordFulkerson (g : Graph) (fuel : Nat) : Option (Int × Graph) :=
  ffLoop fuel (ffInit g)

/-- `findMinCut`: one more `bfs` in partition mode.  If the target is
still reachable the function reports failure and emits no partition
(`none`); otherwise it emits the two node-id lists. -/
def findMinCut (g : Graph) : Option (List Node × List Node) :=
  if bfsFound g initParents = true then none
  else some (bfsPartition g)

/-- The hardcoded input graph built in `main`: residual and original
capacities both set to the input capacity for each real edge, all other
entries (including all back edges) at `(0, 0)`. -/
def inputGraph : Graph :=
  Vec6.ofFn (fun u => Vec6.ofFn (fun v =>
    match u.val, v.val with
    | 0, 1 => ⟨4, 4⟩
    | 0, 2 => ⟨7, 7⟩
    | 0, 3 => ⟨10, 10⟩
    | 1, 4 => ⟨2, 2⟩
    | 1, 5 => ⟨10, 10⟩
    | 2, 1 => ⟨2, 2⟩
    | 2, 3 => ⟨2, 2⟩
    | 2, 4 => ⟨10, 10⟩
    | 3, 4 => ⟨2, 2⟩
    | 3, 5 => ⟨6, 6⟩
    | 4, 5 => ⟨7, 7⟩
    | _, _ => ⟨0, 0⟩))

/-- Reachability from the source along edges of strictly positive
residual capacity (the notion of "augmenting path" restricted to
prefixes: the target is reachable iff an augmenting path exists). -/
inductive Reach (g : Graph) : Node → Prop
  | source : Reach g SOURCE_NODE_ID
  | step : ∀ u v, Reach g u → 0 < resCap g u v → Reach g v

/-- Net flow pushed through entry `(u, v)` relative to a reference graph:
the drop in residual capacity.  When the reference graph is properly
initialized (`residual = original`), this is the per-edge realized flow
`originalCapacity − residualCapacity` of the spec. -/
def pushedFlow (g0 g : Graph) (u v : Node) : Int :=
  resCap g0 u v - resCap g u v

/-- The derived per-edge flow `originalCapacity(u,v) − residualCapacity(u,v)`. -/
def edgeFlow (g : Graph) (u v : Node) : Int :=
  origCap g u v - resCap g u v

/-- Sum of the derived flows of the real incoming edges of `n`: entries
`(u, n)` that are real input edges of `g0` (strictly positive original
capacity), read in the graph `g`. -/
def realInFlow (g0 g : Graph) (n : Node) : Int :=
  ∑ u : Node, if 0 < origCap g0 u n then edgeFlow g u n else 0

/-- Sum of the derived flows of the real outgoing edges of `n`: entries
`(n, v)` that are real input edges of `g0` (strictly positive original
capacity), read in the graph `g`. -/
def realOutFlow (g0 g : Graph) (n : Node) : Int :=
  ∑ v : Node, if 0 < origCap g0 n v then edgeFlow g n v else 0

/-- Capacity of the cut whose source side is `s`: the sum of original
capacities of edges crossing from the source side to the sink side. -/
def cutCapacity (g : Graph) (s : Node → Bool) : Int :=
  ∑ u : Node, ∑ v : Node,
    if s u = true ∧ s v = false then origCap g u v else 0

/-- A feasible flow for capacities `cap` (spec §8: capacity respect and
conservation). -/
def IsFlow (cap : Node → Node → Int) (f : Node → Node → Int) : Prop :=
  (∀ u v, 0 ≤ f u v ∧ f u v ≤ cap u v) ∧
  (∀ n : Node, n ≠ SOURCE_NODE_ID → n ≠ TARGET_NODE_ID →
    (∑ u : Node, f u n) = ∑ v : Node, f n v)

/-- Value of a flow: net flow out of the source. -/
def flowValue (f : Node → Node → Int) : Int :=
  (∑ v : Node, f SOURCE_NODE_ID v) - ∑ u : Node, f u SOURCE_NODE_ID

/-- Number of unvisited nodes in a BFS state. -/
def unvisCount (s : BfsSt) : Nat :=
  ((List.finRange NODE_COUNT).filter (fun v => s.trav.get v = false)).length

/-- Termination measure for the BFS queue loop. -/
def bfsBudget (s : BfsSt) : Nat := s.q.length + 2 * unvisCount s

/-- Parent-pointer invariant: every visited non-source node has a parent
pointer, stored during this BFS run, pointing at a visited node over a
positive-residual edge, and the parent was discovered strictly earlier
(witnessed by a rank function `d`), so parent chains are acyclic. -/
def ParentInv (g : Graph) (s : BfsSt) : Prop :=
  ∃ d : Node → Nat, ∀ v, s.trav.get v = true → v ≠ SOURCE_NODE_ID →
    ∃ u : Node, (s.par.get v).parent_id_ = (u.val : Int) ∧ s.trav.get u = true ∧
      0 < resCap g u v ∧ d u < d v

/-- Invariant carried through one scan (closure is re-established at the
loop level): the dequeued node and the source are visited, queued nodes
are visited, visited nodes are reachable, and parent pointers are sane. -/
def ScanInv (g : Graph) (node : Node) (s : BfsSt) : Prop :=
  s.trav.get node = true ∧
  s.trav.get SOURCE_NODE_ID = true ∧
  (∀ u ∈ s.q, s.trav.get u = true) ∧
  (∀ v, s.trav.get v = true → Reach g v) ∧
  ParentInv g s

/-- The full BFS loop invariant. -/
def BfsInv (g : Graph) (s : BfsSt) : Prop :=
  s.trav.get SOURCE_NODE_ID = true ∧
  (∀ u ∈ s.q, s.trav.get u = true) ∧
  (∀ v, s.trav.get v = true → Reach g v) ∧
  (∀ u, s.trav.get u = true →
    u ∈ s.q ∨ ∀ v, 0 < resCap g u v → s.trav.get v = true) ∧
  ParentInv g s

/-- Properties of the augmenting path walked by `fordFulkerson` after a
successful `bfs`: edges follow freshly-written parent pointers over
positive-residual entries between visited nodes; the node chain runs
from the target down to the source without repetition. -/
def ChainSpec (g : Graph) (b : BfsSt) (edges : List (Node × Node)) : Prop :=
  (∀ pc ∈ edges, b.trav.get pc.1 = true ∧ b.trav.get pc.2 = true ∧
      0 < resCap g pc.1 pc.2 ∧ (b.par.get pc.2).parent_id_ = (pc.1.val : Int)) ∧
  edges.map Prod.snd = (TARGET_NODE_ID :: edges.map Prod.fst).dropLast ∧
  (TARGET_NODE_ID :: edges.map Prod.fst).getLast? = some SOURCE_NODE_ID ∧
  (TARGET_NODE_ID :: edges.map Prod.fst).Nodup ∧
  edges.Nodup ∧
  (∀ pc ∈ edges, pc.1 ≠ pc.2 ∧ (pc.2, pc.1) ∉ edges)

/-- Sum of residual capacities of the edges leaving `n`. -/
def rowRes (g : Graph) (n : Node) : Int := ∑ v : Node, resCap g n v

/-- Sum of residual capacities of the edges entering `n`. -/
def colRes (g : Graph) (n : Node) : Int := ∑ u : Node, resCap g u n

/-- Relation between two BFS states that differ only in parent entries
not written during this call. -/
def PairInv (b b' : BfsSt) : Prop :=
  b.trav = b'.trav ∧ b.q = b'.q ∧
  ∀ v, v ≠ SOURCE_NODE_ID → b.trav.get v = true →
    (b.par.get v).parent_id_ = (b'.par.get v).parent_id_

/-- Invariant of the augmentation loop relative to the starting residual
graph `g0`: original capacities never change, residual capacities stay
non-negative, each forward/backward pair conserves its total residual
capacity, the net pushed flow is conserved at interior nodes, and the net
flow pushed out of the source equals `max_flow`. -/
def FFInv (g0 : Graph) (st : FFSt) : Prop :=
  (∀ u v, origCap st.graph u v = origCap g0 u v) ∧
  (∀ u v, 0 ≤ resCap st.graph u v) ∧
  (∀ u v, resCap st.graph u v + resCap st.graph v u = resCap g0 u v + resCap g0 v u) ∧
  (∀ n : Node, n ≠ SOURCE_NODE_ID → n ≠ TARGET_NODE_ID →
    (∑ u : Node, pushedFlow g0 st.graph u n) = 0) ∧
  ((∑ v : Node, pushedFlow g0 st.graph SOURCE_NODE_ID v) = st.max_flow)

/-! ### States reached by the augmentation loop -/

/-- The states the `fordFulkerson` loop can reach when started on `g0`:
the initial state, and any state obtained from a reachable state by one
loop iteration after a successful `bfs`. -/
inductive ReachesFF (g0 : Graph) : FFSt → Prop
  | init : ReachesFF g0 (ffInit g0)
  | step : ∀ (st : FFSt) (edges : List (Node × Node)), ReachesFF g0 st →
      (bfsRun st.graph st.augmentingPath).trav.get TARGET_NODE_ID = true →
      pathEdges (bfsRun st.graph st.augmentingPath).par NODE_COUNT TARGET_NODE_ID = some edges →
      ReachesFF g0 (ffIter st edges)

/-! ### Specification predicates for single-iteration behaviour -/

/-- What one iteration of `fordFulkerson` does after a successful `bfs`
with parent buffer `ap`: the parent-chain walk yields a non-empty edge
list; the bottleneck is the minimum residual capacity over those edges
(attained on one of them unless the fold's `INT_MAX` start survives);
each chain edge loses the bottleneck from its forward residual entry,
gains it on the reverse entry, and has its child's parent pointer reset
to `INVALID_PARENT`; entries on no chain edge (in either direction) are
unchanged. -/
def BottleneckSpec (g : Graph) (ap : Parents) : Prop :=
  ∃ edges : List (Node × Node),
    pathEdges (bfsRun g ap).par NODE_COUNT TARGET_NODE_ID = some edges ∧
    edges ≠ [] ∧
    (∀ pc ∈ edges, minFlowInPath g edges ≤ resCap g pc.1 pc.2) ∧
    (minFlowInPath g edges = INT_MAX ∨
      ∃ pc ∈ edges, minFlowInPath g edges = resCap g pc.1 pc.2) ∧
    (∀ pc ∈ edges,
      resCap (augment g (minFlowInPath g edges) edges) pc.1 pc.2
          = resCap g pc.1 pc.2 - minFlowInPath g edges ∧
      resCap (augment g (minFlowInPath g edges) edges) pc.2 pc.1
          = resCap g pc.2 pc.1 + minFlowInPath g edges ∧
      ((resetParents (bfsRun g ap).par edges).get pc.2).parent_id_ = INVALID_PARENT) ∧
    (∀ a b : Node, (a, b) ∉ edges → (b, a) ∉ edges →
      resCap (augment g (minFlowInPath g edges) edges) a b = resCap g a b)

/-- Safety of the parent-chain walks done by `fordFulkerson` after a
successful `bfs` with parent buffer `ap`: the walk result is determined
by the freshly written parent entries alone (any parent buffer `ap'`
gives the same edge list), every parent id read was assigned during this
`bfs` call to the id of a visited node (hence lies in `[0, NODE_COUNT)`
and is never `INVALID_PARENT`), and the walked node chain reaches the
source without revisiting a node. -/
def ChainSafe (g : Graph) (ap : Parents) : Prop :=
  ∃ edges : List (Node × Node),
    (∀ ap' : Parents,
      pathEdges (bfsRun g ap').par NODE_COUNT TARGET_NODE_ID = some edges) ∧
    edges ≠ [] ∧
    (TARGET_NODE_ID :: edges.map Prod.fst).Nodup ∧
    (TARGET_NODE_ID :: edges.map Prod.fst).getLast? = some SOURCE_NODE_ID ∧
    (∀ pc ∈ edges,
      ((bfsRun g ap).par.get pc.2).parent_id_ = (pc.1.val : Int) ∧
      (bfsRun g ap).trav.get pc.1 = true ∧
      (bfsRun g ap).trav.get pc.2 = true ∧
      0 ≤ ((bfsRun g ap).par.get pc.2).parent_id_ ∧
      ((bfsRun g ap).par.get pc.2).parent_id_ < (NODE_COUNT : Int) ∧
      ((bfsRun g ap).par.get pc.2).parent_id_ ≠ INVALID_PARENT)

/-! ### Concrete graphs for the main scenario and for stress inputs -/

/-- A graph with the antiparallel edge pair `1 → 2` and `2 → 1` (both of
capacity 1), plus `0 → 1` and `2 → 5` of capacity 1; all residual
capacities start equal to the original capacities. -/
def gBad : Graph :=
  ⟨⟨⟨0, 0⟩, ⟨1, 1⟩, ⟨0, 0⟩, ⟨0, 0⟩, ⟨0, 0⟩, ⟨0, 0⟩⟩,
   ⟨⟨0, 0⟩, ⟨0, 0⟩, ⟨1, 1⟩, ⟨0, 0⟩, ⟨0, 0⟩, ⟨0, 0⟩⟩,
   ⟨⟨0, 0⟩, ⟨1, 1⟩, ⟨0, 0⟩, ⟨0, 0⟩, ⟨0, 0⟩, ⟨1, 1⟩⟩,
   ⟨⟨0, 0⟩, ⟨0, 0⟩, ⟨0, 0⟩, ⟨0, 0⟩, ⟨0, 0⟩, ⟨0, 0⟩⟩,
   ⟨⟨0, 0⟩, ⟨0, 0⟩, ⟨0, 0⟩, ⟨0, 0⟩, ⟨0, 0⟩, ⟨0, 0⟩⟩,
   ⟨⟨0, 0⟩, ⟨0, 0⟩, ⟨0, 0⟩, ⟨0, 0⟩, ⟨0, 0⟩, ⟨0, 0⟩⟩⟩

/-- A graph whose single edge `0 → 5` carries the negative capacity
`-1`, both as residual and as original capacity. -/
def gNeg : Graph :=
  ⟨⟨⟨0, 0⟩, ⟨0, 0⟩, ⟨0, 0⟩, ⟨0, 0⟩, ⟨0, 0⟩, ⟨-1, -1⟩⟩,
   ⟨⟨0, 0⟩, ⟨0, 0⟩, ⟨0, 0⟩, ⟨0, 0⟩, ⟨0, 0⟩, ⟨0, 0⟩⟩,
   ⟨⟨0, 0⟩, ⟨0, 0⟩, ⟨0, 0⟩, ⟨0, 0⟩, ⟨0, 0⟩, ⟨0, 0⟩⟩,
   ⟨⟨0, 0⟩, ⟨0, 0⟩, ⟨0, 0⟩, ⟨0, 0⟩, ⟨0, 0⟩, ⟨0, 0⟩⟩,
   ⟨⟨0, 0⟩, ⟨0, 0⟩, ⟨0, 0⟩, ⟨0, 0⟩, ⟨0, 0⟩, ⟨0, 0⟩⟩,
   ⟨⟨0, 0⟩, ⟨0, 0⟩, ⟨0, 0⟩, ⟨0, 0⟩, ⟨0, 0⟩, ⟨0, 0⟩⟩⟩

/-! ### The intermediate states of the run on the hardcoded graph

The following path lists and states record, iteration by iteration, the
run of `fordFulkerson` on `inputGraph`; each is verified by `decide`
below against one unfolding of the loop. -/

def pathList0 : List (Node × Node) := [(1, 5), (0, 1)]

def ffState1 : FFSt :=
  { graph := ⟨⟨⟨0, 0⟩, ⟨0, 4⟩, ⟨7, 7⟩, ⟨10, 10⟩, ⟨0, 0⟩, ⟨0, 0⟩⟩, ⟨⟨4, 0⟩, ⟨0, 0⟩, ⟨0, 0⟩, ⟨0, 0⟩, ⟨2, 2⟩, ⟨6, 10⟩⟩, ⟨⟨0, 0⟩, ⟨2, 2⟩, ⟨0, 0⟩, ⟨2, 2⟩, ⟨10, 10⟩, ⟨0, 0⟩⟩, ⟨⟨0, 0⟩, ⟨0, 0⟩, ⟨0, 0⟩, ⟨0, 0⟩, ⟨2, 2⟩, ⟨6, 6⟩⟩, ⟨⟨0, 0⟩, ⟨0, 0⟩, ⟨0, 0⟩, ⟨0, 0⟩, ⟨0, 0⟩, ⟨7, 7⟩⟩, ⟨⟨0, 0⟩, ⟨4, 0⟩, ⟨0, 0⟩, ⟨0, 0⟩, ⟨0, 0⟩, ⟨0, 0⟩⟩⟩,
    augmentingPath := ⟨⟨0, -1⟩, ⟨1, -1⟩, ⟨2, 0⟩, ⟨3, 0⟩, ⟨4, 1⟩, ⟨5, -1⟩⟩,
    max_flow := 4 }

def pathList1 : List (Node × Node) := [(3, 5), (0, 3)]

def ffState2 : FFSt :=
  { graph := ⟨⟨⟨0, 0⟩, ⟨0, 4⟩, ⟨7, 7⟩, ⟨4, 10⟩, ⟨0, 0⟩, ⟨0, 0⟩⟩, ⟨⟨4, 0⟩, ⟨0, 0⟩, ⟨0, 0⟩, ⟨0, 0⟩, ⟨2, 2⟩, ⟨6, 10⟩⟩, ⟨⟨0, 0⟩, ⟨2, 2⟩, ⟨0, 0⟩, ⟨2, 2⟩, ⟨10, 10⟩, ⟨0, 0⟩⟩, ⟨⟨6, 0⟩, ⟨0, 0⟩, ⟨0, 0⟩, ⟨0, 0⟩, ⟨2, 2⟩, ⟨0, 6⟩⟩, ⟨⟨0, 0⟩, ⟨0, 0⟩, ⟨0, 0⟩, ⟨0, 0⟩, ⟨0, 0⟩, ⟨7, 7⟩⟩, ⟨⟨0, 0⟩, ⟨4, 0⟩, ⟨0, 0⟩, ⟨6, 0⟩, ⟨0, 0⟩, ⟨0, 0⟩⟩⟩,
    augmentingPath := ⟨⟨0, -1⟩, ⟨1, 2⟩, ⟨2, 0⟩, ⟨3, -1⟩, ⟨4, 2⟩, ⟨5, -1⟩⟩,
    max_flow := 10 }

def pathList2 : List (Node × Node) := [(1, 5), (2, 1), (0, 2)]

def ffState3 : FFSt :=
  { graph := ⟨⟨⟨0, 0⟩, ⟨0, 4⟩, ⟨5, 7⟩, ⟨4, 10⟩, ⟨0, 0⟩, ⟨0, 0⟩⟩, ⟨⟨4, 0⟩, ⟨0, 0⟩, ⟨2, 0⟩, ⟨0, 0⟩, ⟨2, 2⟩, ⟨4, 10⟩⟩, ⟨⟨2, 0⟩, ⟨0, 2⟩, ⟨0, 0⟩, ⟨2, 2⟩, ⟨10, 10⟩, ⟨0, 0⟩⟩, ⟨⟨6, 0⟩, ⟨0, 0⟩, ⟨0, 0⟩, ⟨0, 0⟩, ⟨2, 2⟩, ⟨0, 6⟩⟩, ⟨⟨0, 0⟩, ⟨0, 0⟩, ⟨0, 0⟩, ⟨0, 0⟩, ⟨0, 0⟩, ⟨7, 7⟩⟩, ⟨⟨0, 0⟩, ⟨6, 0⟩, ⟨0, 0⟩, ⟨6, 0⟩, ⟨0, 0⟩, ⟨0, 0⟩⟩⟩,
    augmentingPath := ⟨⟨0, -1⟩, ⟨1, -1⟩, ⟨2, -1⟩, ⟨3, 0⟩, ⟨4, 2⟩, ⟨5, -1⟩⟩,
    max_flow := 12 }

def pathList3 : List (Node × Node) := [(4, 5), (2, 4), (0, 2)]

def ffState4 : FFSt :=
  { graph := ⟨⟨⟨0, 0⟩, ⟨0, 4⟩, ⟨0, 7⟩, ⟨4, 10⟩, ⟨0, 0⟩, ⟨0, 0⟩⟩, ⟨⟨4, 0⟩, ⟨0, 0⟩, ⟨2, 0⟩, ⟨0, 0⟩, ⟨2, 2⟩, ⟨4, 10⟩⟩, ⟨⟨7, 0⟩, ⟨0, 2⟩, ⟨0, 0⟩, ⟨2, 2⟩, ⟨5, 10⟩, ⟨0, 0⟩⟩, ⟨⟨6, 0⟩, ⟨0, 0⟩, ⟨0, 0⟩, ⟨0, 0⟩, ⟨2, 2⟩, ⟨0, 6⟩⟩, ⟨⟨0, 0⟩, ⟨0, 0⟩, ⟨5, 0⟩, ⟨0, 0⟩, ⟨0, 0⟩, ⟨2, 7⟩⟩, ⟨⟨0, 0⟩, ⟨6, 0⟩, ⟨0, 0⟩, ⟨6, 0⟩, ⟨5, 0⟩, ⟨0, 0⟩⟩⟩,
    augmentingPath := ⟨⟨0, -1⟩, ⟨1, 5⟩, ⟨2, -1⟩, ⟨3, 0⟩, ⟨4, -1⟩, ⟨5, -1⟩⟩,
    max_flow := 17 }

def pathList4 : List (Node × Node) := [(4, 5), (3, 4), (0, 3)]

def ffState5 : FFSt :=
  { graph := ⟨⟨⟨0, 0⟩, ⟨0, 4⟩, ⟨0, 7⟩, ⟨2, 10⟩, ⟨0, 0⟩, ⟨0, 0⟩⟩, ⟨⟨4, 0⟩, ⟨0, 0⟩, ⟨2, 0⟩, ⟨0, 0⟩, ⟨2, 2⟩, ⟨4, 10⟩⟩, ⟨⟨7, 0⟩, ⟨0, 2⟩, ⟨0, 0⟩, ⟨2, 2⟩, ⟨5, 10⟩, ⟨0, 0⟩⟩, ⟨⟨8, 0⟩, ⟨0, 0⟩, ⟨0, 0⟩, ⟨0, 0⟩, ⟨0, 2⟩, ⟨0, 6⟩⟩, ⟨⟨0, 0⟩, ⟨0, 0⟩, ⟨5, 0⟩, ⟨2, 0⟩, ⟨0, 0⟩, ⟨0, 7⟩⟩, ⟨⟨0, 0⟩, ⟨6, 0⟩, ⟨0, 0⟩, ⟨6, 0⟩, ⟨7, 0⟩, ⟨0, 0⟩⟩⟩,
    augmentingPath := ⟨⟨0, -1⟩, ⟨1, 5⟩, ⟨2, 4⟩, ⟨3, -1⟩, ⟨4, -1⟩, ⟨5, -1⟩⟩,
    max_flow := 19 }

/-! ### Basic lemmas about `Vec6` -/

theorem Vec6.get_set {α : Type} (r : Vec6 α) (i j : Node) (a : α) :
    (r.set i a).get j = if j = i then a else r.get j := by
  fin_cases i <;> fin_cases j <;> simp [Vec6.get, Vec6.set, Fin.ext_iff]

theorem Vec6.get_set_same {α : Type} (r : Vec6 α) (i : Node) (a : α) :
    (r.set i a).get i = a := by
  rw [Vec6.get_set, if_pos rfl]

theorem Vec6.get_set_other {α : Type} (r : Vec6 α) (i j : Node) (a : α) (h : j ≠ i) :
    (r.set i a).get j = r.get j := by
  rw [Vec6.get_set, if_neg h]

theorem Vec6.get_ofFn {α : Type} (f : Node → α) (i : Node) :
    (Vec6.ofFn f).get i = f i := by
  fin_cases i <;> rfl

theorem Vec6.eq_of_get {α : Type} {r s : Vec6 α} (h : ∀ i, r.get i = s.get i) : r = s := by
  obtain ⟨a0, a1, a2, a3, a4, a5⟩ := r
  obtain ⟨b0, b1, b2, b3, b4, b5⟩ := s
  have h0 := h 0
  have h1 := h 1
  have h2 := h 2
  have h3 := h 3
  have h4 := h 4
  have h5 := h 5
  simp only [Vec6.get] at h0 h1 h2 h3 h4 h5
  simp_all

/-! ### Generic fold invariants -/

theorem foldl_preserves {α β : Type} (f : β → α → β) (P : β → Prop) :
    ∀ (l : List α) (b : β), P b → (∀ b a, a ∈ l → P b → P (f b a)) → P (l.foldl f b)
  | [], _, hb, _ => hb
  | a :: l, b, hb, hstep =>
    foldl_preserves f P l (f b a) (hstep b a (List.mem_cons_self a l) hb)
      (fun b' a' ha' hb' => hstep b' a' (List.mem_cons_of_mem a ha') hb')

theorem foldl_reaches {α β : Type} (f : β → α → β) (R : β → Prop)
    (hmono : ∀ b a, R b → R (f b a)) :
    ∀ (l : List α) (b : β) (a : α), a ∈ l → (∀ b', R (f b' a)) → R (l.foldl f b)
  | x :: l, b, a, ha, hhit => by
    rcases List.mem_cons.mp ha with h | h
    · subst h
      exact foldl_preserves f R l (f b a) (hhit b) (fun b' a' _ hb' => hmono b' a' hb')
    · exact foldl_reaches f R hmono l (f b x) a h hhit

/-! ### BFS scan lemmas -/

theorem bfsScanStep_trav_mono (g : Graph) (n : Node) (s : BfsSt) (next v : Node)
    (hv : s.trav.get v = true) : (bfsScanStep g n s next).trav.get v = true := by
  unfold bfsScanStep
  split
  · show (s.trav.set next true).get v = true
    rw [Vec6.get_set]
    split
    · rfl
    · exact hv
  · exact hv

theorem bfsScanStep_q_mono (g : Graph) (n : Node) (s : BfsSt) (next u : Node)
    (hu : u ∈ s.q) : u ∈ (bfsScanStep g n s next).q := by
  unfold bfsScanStep
  split
  · exact List.mem_append_left _ hu
  · exact hu

theorem bfsScan_trav_mono (g : Graph) (n : Node) (s : BfsSt) (v : Node)
    (hv : s.trav.get v = true) : (bfsScan g n s).trav.get v = true :=
  foldl_preserves _ (fun b => b.trav.get v = true) _ s hv
    (fun b a _ hb => bfsScanStep_trav_mono g n b a v hb)

theorem bfsScan_q_mono (g : Graph) (n : Node) (s : BfsSt) (u : Node)
    (hu : u ∈ s.q) : u ∈ (bfsScan g n s).q :=
  foldl_preserves _ (fun b => u ∈ b.q) _ s hu
    (fun b a _ hb => bfsScanStep_q_mono g n b a u hb)

theorem bfsScan_new_marks_queued (g : Graph) (n : Node) (s : BfsSt) :
    ∀ v, (bfsScan g n s).trav.get v = true → s.trav.get v = true ∨ v ∈ (bfsScan g n s).q := by
  have h := foldl_preserves (bfsScanStep g n)
    (fun b => ∀ v, b.trav.get v = true → s.trav.get v = true ∨ v ∈ b.q)
    (List.finRange NODE_COUNT) s (fun v hv => Or.inl hv) ?_
  · exact h
  · intro b a _ hb v hv
    revert hv
    unfold bfsScanStep
    split
    · intro hv
      show s.trav.get v = true ∨ v ∈ b.q ++ [a]
      by_cases hva : v = a
      · subst hva
        exact Or.inr (List.mem_append_right _ (List.mem_singleton_self v))
      · have : b.trav.get v = true := by
          have : (b.trav.set a true).get v = true := hv
          rwa [Vec6.get_set_other _ _ _ _ hva] at this
        rcases hb v this with h | h
        · exact Or.inl h
        · exact Or.inr (List.mem_append_left _ h)
    · intro hv
      exact hb v hv

theorem bfsScanStep_marks_hit (g : Graph) (n : Node) (s : BfsSt) (next : Node)
    (h : 0 < resCap g n next) : (bfsScanStep g n s next).trav.get next = true := by
  unfold bfsScanStep
  split
  · exact Vec6.get_set_same _ _ _
  · rename_i hc
    rcases Bool.eq_false_or_eq_true (s.trav.get next) with ht | hf
    · exact ht
    · exact absurd ⟨hf, h⟩ hc

theorem bfsScan_marks_neighbors (g : Graph) (n : Node) (s : BfsSt) (v : Node)
    (h : 0 < resCap g n v) : (bfsScan g n s).trav.get v = true :=
  foldl_reaches (bfsScanStep g n) (fun b => b.trav.get v = true)
    (fun b a hb => bfsScanStep_trav_mono g n b a v hb)
    (List.finRange NODE_COUNT) s v (List.mem_finRange v)
    (fun b => bfsScanStep_marks_hit g n b v h)

/-! ### BFS budget: the queue loop always drains -/


theorem unvis_set_true (s : BfsSt) (v : Node) (hv : s.trav.get v = false) (p : Parents) (q : List Node) :
    unvisCount ⟨s.trav.set v true, p, q⟩ + 1 = unvisCount s := by
  unfold unvisCount
  show (List.filter _ (List.finRange NODE_COUNT)).length + 1
      = (List.filter _ (List.finRange NODE_COUNT)).length
  have main : ∀ l : List Node, l.Nodup → v ∈ l →
      (l.filter (fun w => decide ((s.trav.set v true).get w = false))).length + 1
        = (l.filter (fun w => decide (s.trav.get w = false))).length := by
    intro l
    induction l with
    | nil => intro _ h; cases h
    | cons x t ih =>
      intro hnd hm
      have hnd' := hnd.of_cons
      have hxt : x ∉ t := (List.nodup_cons.mp hnd).1
      by_cases hxv : x = v
      · subst hxv
        rw [List.filter_cons, List.filter_cons]
        have h1 : (decide ((s.trav.set x true).get x = false)) = false := by
          simp [Vec6.get_set_same]
        have h2 : (decide (s.trav.get x = false)) = true := by simp [hv]
        have heq : t.filter (fun w => decide ((s.trav.set x true).get w = false))
            = t.filter (fun w => decide (s.trav.get w = false)) := by
          apply List.filter_congr
          intro w hw
          have hwx : w ≠ x := fun he => hxt (he ▸ hw)
          rw [Vec6.get_set_other _ _ _ _ hwx]
        rw [h1, h2, heq]
        simp
      · have hvt : v ∈ t := by
          rcases List.mem_cons.mp hm with h | h
          · exact absurd h.symm hxv
          · exact h
        rw [List.filter_cons, List.filter_cons]
        have hxv' : x ≠ v := hxv
        rw [Vec6.get_set_other _ _ _ _ hxv']
        by_cases hx : (decide (s.trav.get x = false)) = true
        · rw [if_pos hx, if_pos hx]
          simp only [List.length_cons]
          have := ih hnd' hvt
          omega
        · rw [if_neg hx, if_neg hx]
          exact ih hnd' hvt
  exact main _ (List.nodup_finRange _) (List.mem_finRange v)


theorem bfsScanStep_budget (g : Graph) (n : Node) (s : BfsSt) (next : Node) :
    bfsBudget (bfsScanStep g n s next) ≤ bfsBudget s := by
  unfold bfsScanStep
  split
  · rename_i hc
    show bfsBudget ⟨s.trav.set next true, _, s.q ++ [next]⟩ ≤ _
    have hc1 : s.trav.get next = false := hc.1
    have h := unvis_set_true s next hc1
      (s.par.set next ⟨(s.par.get next).id_, (n.val : Int)⟩) (s.q ++ [next])
    unfold bfsBudget at h ⊢
    simp only [List.length_append, List.length_cons, List.length_nil] at *
    omega
  · exact le_refl _

theorem bfsScan_budget (g : Graph) (n : Node) (s : BfsSt) :
    bfsBudget (bfsScan g n s) ≤ bfsBudget s :=
  foldl_preserves _ (fun b => bfsBudget b ≤ bfsBudget s) _ s (le_refl _)
    (fun b a _ hb => le_trans (bfsScanStep_budget g n b a) hb)

theorem bfsLoop_succ_unfold (g : Graph) (fuel : Nat) (s : BfsSt) :
    bfsLoop g (fuel + 1) s =
      match s.q with
      | [] => s
      | node_id :: rest => bfsLoop g fuel (bfsScan g node_id { s with q := rest }) := rfl

theorem bfsLoop_succ_nil (g : Graph) (fuel : Nat) (s : BfsSt) (h : s.q = []) :
    bfsLoop g (fuel + 1) s = s := by
  rw [bfsLoop_succ_unfold, h]

theorem bfsLoop_succ_cons (g : Graph) (fuel : Nat) (s : BfsSt) (node : Node) (rest : List Node)
    (h : s.q = node :: rest) :
    bfsLoop g (fuel + 1) s = bfsLoop g fuel (bfsScan g node { s with q := rest }) := by
  rw [bfsLoop_succ_unfold, h]

theorem bfsLoop_exits (g : Graph) :
    ∀ fuel s, bfsBudget s ≤ fuel → (bfsLoop g fuel s).q = [] := by
  intro fuel
  induction fuel with
  | zero =>
    intro s hs
    unfold bfsBudget at hs
    have : s.q.length = 0 := by omega
    simpa [bfsLoop] using List.length_eq_zero.mp this
  | succ fuel ih =>
    intro s hs
    rcases hq : s.q with _ | ⟨node_id, rest⟩
    · rw [bfsLoop_succ_nil g fuel s hq]
      exact hq
    · rw [bfsLoop_succ_cons g fuel s node_id rest hq]
      apply ih
      have h1 : bfsBudget (bfsScan g node_id { s with q := rest }) ≤
          bfsBudget { s with q := rest } := bfsScan_budget _ _ _
      have h2 : bfsBudget { s with q := rest } + 1 = bfsBudget s := by
        unfold bfsBudget
        show rest.length + 2 * unvisCount _ + 1 = s.q.length + 2 * unvisCount s
        have : unvisCount { s with q := rest } = unvisCount s := rfl
        rw [this, hq]
        simp only [List.length_cons]
        omega
      omega

theorem bfsLoop_inv (g : Graph) (P : BfsSt → Prop)
    (hstep : ∀ s node rest, s.q = node :: rest → P s → P (bfsScan g node { s with q := rest })) :
    ∀ fuel s, P s → P (bfsLoop g fuel s) := by
  intro fuel
  induction fuel with
  | zero => intro s hs; exact hs
  | succ fuel ih =>
    intro s hs
    rcases hq : s.q with _ | ⟨node_id, rest⟩
    · rw [bfsLoop_succ_nil g fuel s hq]
      exact hs
    · rw [bfsLoop_succ_cons g fuel s node_id rest hq]
      exact ih _ (hstep s node_id rest hq hs)

/-! ### The BFS invariant -/



theorem bfsScanStep_scanInv (g : Graph) (node : Node) (b : BfsSt) (next : Node)
    (hb : ScanInv g node b) : ScanInv g node (bfsScanStep g node b next) := by
  obtain ⟨hnode, hsrc, hque, hsound, d, hpar⟩ := hb
  unfold bfsScanStep
  split
  · rename_i hc
    obtain ⟨hunv, hres⟩ := hc
    have hnext_ne : ∀ w, b.trav.get w = true → w ≠ next := by
      intro w hw he
      rw [he, hunv] at hw
      cases hw
    refine ⟨?_, ?_, ?_, ?_, ?_⟩
    · show (b.trav.set next true).get node = true
      rw [Vec6.get_set_other _ _ _ _ (hnext_ne node hnode)]
      exact hnode
    · show (b.trav.set next true).get SOURCE_NODE_ID = true
      rw [Vec6.get_set_other _ _ _ _ (hnext_ne _ hsrc)]
      exact hsrc
    · intro u hu
      show (b.trav.set next true).get u = true
      rcases List.mem_append.mp hu with h | h
      · rw [Vec6.get_set]
        split
        · rfl
        · exact hque u h
      · have : u = next := List.mem_singleton.mp h
        rw [this, Vec6.get_set_same]
    · intro v hv
      show Reach g v
      by_cases hvn : v = next
      · subst hvn
        exact Reach.step node v (hsound node hnode) hres
      · have : b.trav.get v = true := by
          have : (b.trav.set next true).get v = true := hv
          rwa [Vec6.get_set_other _ _ _ _ hvn] at this
        exact hsound v this
    · refine ⟨Function.update d next (d node + 1), ?_⟩
      intro v hv hvs
      by_cases hvn : v = next
      · subst hvn
        refine ⟨node, ?_, ?_, hres, ?_⟩
        · show ((b.par.set v ⟨(b.par.get v).id_, (node.val : Int)⟩).get v).parent_id_ = _
          rw [Vec6.get_set_same]
        · show (b.trav.set v true).get node = true
          rw [Vec6.get_set_other _ _ _ _ (hnext_ne node hnode)]
          exact hnode
        · rw [Function.update_same, Function.update_noteq (hnext_ne node hnode)]
          omega
      · have hbv : b.trav.get v = true := by
          have : (b.trav.set next true).get v = true := hv
          rwa [Vec6.get_set_other _ _ _ _ hvn] at this
        obtain ⟨u, hpid, hut, hur, hd⟩ := hpar v hbv hvs
        refine ⟨u, ?_, ?_, hur, ?_⟩
        · show ((b.par.set next _).get v).parent_id_ = _
          rw [Vec6.get_set_other _ _ _ _ hvn]
          exact hpid
        · show (b.trav.set next true).get u = true
          rw [Vec6.get_set_other _ _ _ _ (hnext_ne u hut)]
          exact hut
        · rw [Function.update_noteq (hnext_ne u hut), Function.update_noteq hvn]
          exact hd
  · exact ⟨hnode, hsrc, hque, hsound, d, hpar⟩

theorem bfsScan_scanInv (g : Graph) (node : Node) (s : BfsSt)
    (hs : ScanInv g node s) : ScanInv g node (bfsScan g node s) :=
  foldl_preserves _ (ScanInv g node) _ s hs
    (fun b a _ hb => bfsScanStep_scanInv g node b a hb)


theorem bfsLoop_step_bfsInv (g : Graph) (s : BfsSt) (node rest)
    (hq : s.q = node :: rest) (h : BfsInv g s) :
    BfsInv g (bfsScan g node { s with q := rest }) := by
  obtain ⟨hsrc, hque, hsound, hclosed, hpar⟩ := h
  have hnode : s.trav.get node = true := hque node (hq ▸ List.mem_cons_self node rest)
  have hscan : ScanInv g node (bfsScan g node { s with q := rest }) := by
    apply bfsScan_scanInv
    exact ⟨hnode, hsrc, fun u hu => hque u (hq ▸ List.mem_cons_of_mem node hu), hsound, hpar⟩
  obtain ⟨hnode', hsrc', hque', hsound', hpar'⟩ := hscan
  refine ⟨hsrc', hque', hsound', ?_, hpar'⟩
  intro u hu
  rcases bfsScan_new_marks_queued g node { s with q := rest } u hu with hold | hnew
  · rcases hclosed u hold with hmem | hdone
    · rw [hq] at hmem
      rcases List.mem_cons.mp hmem with he | hr
      · subst he
        exact Or.inr (fun v hv => bfsScan_marks_neighbors g u { s with q := rest } v hv)
      · exact Or.inl (bfsScan_q_mono g node { s with q := rest } u hr)
    · exact Or.inr (fun v hv =>
        bfsScan_trav_mono g node { s with q := rest } v (hdone v hv))
  · exact Or.inl hnew

theorem bfsInit_bfsInv (g : Graph) (ap : Parents) : BfsInv g (bfsInit ap) := by
  have htrav : ∀ v : Node, (bfsInit ap).trav.get v = true → v = SOURCE_NODE_ID := by
    intro v hv
    by_cases h : v = SOURCE_NODE_ID
    · exact h
    · exfalso
      have : (bfsInit ap).trav.get v = false := by
        show (((Vec6.ofFn fun _ => false).set SOURCE_NODE_ID true)).get v = false
        rw [Vec6.get_set_other _ _ _ _ h, Vec6.get_ofFn]
      rw [this] at hv
      cases hv
  refine ⟨?_, ?_, ?_, ?_, ?_⟩
  · show ((Vec6.ofFn fun _ => false).set SOURCE_NODE_ID true).get SOURCE_NODE_ID = true
    exact Vec6.get_set_same _ _ _
  · intro u hu
    have : u = SOURCE_NODE_ID := List.mem_singleton.mp hu
    rw [this]
    show ((Vec6.ofFn fun _ => false).set SOURCE_NODE_ID true).get SOURCE_NODE_ID = true
    exact Vec6.get_set_same _ _ _
  · intro v hv
    rw [htrav v hv]
    exact Reach.source
  · intro u hu
    exact Or.inl ((htrav u hu) ▸ List.mem_singleton_self _)
  · exact ⟨fun _ => 0, fun v hv hvs => absurd (htrav v hv) hvs⟩

theorem bfsRun_bfsInv (g : Graph) (ap : Parents) : BfsInv g (bfsRun g ap) :=
  bfsLoop_inv g (BfsInv g) (fun s node rest hq h => bfsLoop_step_bfsInv g s node rest hq h)
    BFS_FUEL (bfsInit ap) (bfsInit_bfsInv g ap)

theorem bfsRun_q_empty (g : Graph) (ap : Parents) : (bfsRun g ap).q = [] := by
  apply bfsLoop_exits
  show bfsBudget (bfsInit ap) ≤ BFS_FUEL
  have : bfsBudget (bfsInit ap) = 11 := rfl
  rw [this]
  decide

/-! ### BFS run corollaries -/

theorem bfsRun_source (g : Graph) (ap : Parents) :
    (bfsRun g ap).trav.get SOURCE_NODE_ID = true :=
  (bfsRun_bfsInv g ap).1

theorem bfsRun_closed (g : Graph) (ap : Parents) (u v : Node)
    (hu : (bfsRun g ap).trav.get u = true) (hv : 0 < resCap g u v) :
    (bfsRun g ap).trav.get v = true := by
  rcases (bfsRun_bfsInv g ap).2.2.2.1 u hu with hmem | hdone
  · rw [bfsRun_q_empty] at hmem
    cases hmem
  · exact hdone v hv

theorem bfsRun_sound (g : Graph) (ap : Parents) (v : Node)
    (hv : (bfsRun g ap).trav.get v = true) : Reach g v :=
  (bfsRun_bfsInv g ap).2.2.1 v hv

theorem bfsRun_complete (g : Graph) (ap : Parents) (v : Node) (hv : Reach g v) :
    (bfsRun g ap).trav.get v = true := by
  induction hv with
  | source => exact bfsRun_source g ap
  | step u w _ hr ih => exact bfsRun_closed g ap u w ih hr

theorem bfsRun_trav_iff_reach (g : Graph) (ap : Parents) (v : Node) :
    (bfsRun g ap).trav.get v = true ↔ Reach g v :=
  ⟨bfsRun_sound g ap v, bfsRun_complete g ap v⟩

/-! ### The parent chain walk -/

theorem toNode_coe (u : Node) : toNode (u.val : Int) = some u := by
  have h : 0 ≤ (u.val : Int) ∧ (u.val : Int) < (NODE_COUNT : Int) :=
    ⟨Int.natCast_nonneg _, by exact_mod_cast u.isLt⟩
  unfold toNode
  rw [dif_pos h]
  simp [Option.some.injEq, Fin.ext_iff]

theorem pathEdges_src (ap : Parents) (k : Nat) :
    pathEdges ap k SOURCE_NODE_ID = some [] := by
  cases k with
  | zero =>
    unfold pathEdges
    rw [if_pos rfl]
  | succ k =>
    unfold pathEdges
    rw [if_pos rfl]

theorem pathEdges_succ_step (ap : Parents) (k : Nat) (v u : Node) (hv : v ≠ SOURCE_NODE_ID)
    (hpid : (ap.get v).parent_id_ = (u.val : Int)) :
    pathEdges ap (k + 1) v =
      match pathEdges ap k u with
      | none => none
      | some rest => some ((u, v) :: rest) := by
  show (if v = SOURCE_NODE_ID then some [] else
    match toNode (ap.get v).parent_id_ with
    | none => none
    | some p =>
      match pathEdges ap k p with
      | none => none
      | some rest => some ((p, v) :: rest)) = _
  rw [if_neg hv, hpid, toNode_coe]

/-- Master lemma on the parent-chain walk after a BFS run: from any
visited node, the walk succeeds, stays within visited nodes, ends at the
source, visits no node twice, follows positive-residual edges recorded
in the parent array, and depends only on the parent entries of visited
non-source nodes (those freshly assigned by this BFS run). -/
theorem pathEdges_ok (g : Graph) (b : BfsSt)
    (d : Node → Nat) (hd : ∀ v, b.trav.get v = true → v ≠ SOURCE_NODE_ID →
      ∃ u : Node, (b.par.get v).parent_id_ = (u.val : Int) ∧ b.trav.get u = true ∧
        0 < resCap g u v ∧ d u < d v) :
    ∀ k (v : Node), b.trav.get v = true →
      (Finset.univ.filter (fun u => b.trav.get u = true ∧ d u < d v)).card < k →
      ∃ edges, pathEdges b.par k v = some edges ∧
        (∀ n ∈ v :: edges.map Prod.fst, b.trav.get n = true ∧ d n ≤ d v) ∧
        (edges.map Prod.snd = (v :: edges.map Prod.fst).dropLast) ∧
        ((v :: edges.map Prod.fst).getLast? = some SOURCE_NODE_ID) ∧
        ((v :: edges.map Prod.fst).Nodup) ∧
        (∀ pc ∈ edges, b.trav.get pc.1 = true ∧ b.trav.get pc.2 = true ∧
            0 < resCap g pc.1 pc.2 ∧ (b.par.get pc.2).parent_id_ = (pc.1.val : Int)) ∧
        (∀ p2 : Parents, (∀ w, b.trav.get w = true → w ≠ SOURCE_NODE_ID →
            (p2.get w).parent_id_ = (b.par.get w).parent_id_) →
          pathEdges p2 k v = some edges) ∧
        edges.Nodup ∧
        (∀ pc ∈ edges, pc.1 ≠ pc.2 ∧ (pc.2, pc.1) ∉ edges) := by
  intro k
  induction k with
  | zero =>
    intro v _ hcard
    exact absurd hcard (by omega)
  | succ k ih =>
    intro v hv hcard
    by_cases hvs : v = SOURCE_NODE_ID
    · refine ⟨[], by rw [hvs]; exact pathEdges_src _ _, ?_, ?_, ?_, ?_, ?_, ?_, ?_, ?_⟩
      · intro n hn
        have hnv : n = v := by simpa using hn
        exact ⟨hnv ▸ hv, hnv ▸ le_refl _⟩
      · rfl
      · simp [hvs]
      · simp
      · intro pc hpc; cases hpc
      · intro p2 _
        rw [hvs]
        exact pathEdges_src _ _
      · exact List.nodup_nil
      · intro pc hpc; cases hpc
    · obtain ⟨u, hpid, hut, hur, hdu⟩ := hd v hv hvs
      -- the strictly-below set shrinks along the chain
      have hsub : (Finset.univ.filter (fun w => b.trav.get w = true ∧ d w < d u)) ⊂
          (Finset.univ.filter (fun w => b.trav.get w = true ∧ d w < d v)) := by
        constructor
        · intro w hw
          rw [Finset.mem_filter] at hw ⊢
          exact ⟨hw.1, hw.2.1, lt_trans hw.2.2 hdu⟩
        · intro hsup
          have hu_mem : u ∈ Finset.univ.filter (fun w => b.trav.get w = true ∧ d w < d v) :=
            Finset.mem_filter.mpr ⟨Finset.mem_univ u, hut, hdu⟩
          have := hsup hu_mem
          rw [Finset.mem_filter] at this
          exact absurd this.2.2 (lt_irrefl _)
      have hcard_u :
          (Finset.univ.filter (fun w => b.trav.get w = true ∧ d w < d u)).card < k := by
        have h1 := Finset.card_lt_card hsub
        omega
      obtain ⟨edges_u, hpe_u, hmem_u, hsnd_u, hlast_u, hnd_u, hprops_u, hcong_u, hednd_u, hrev_u⟩ :=
        ih u hut hcard_u
      have hpe : pathEdges b.par (k + 1) v = some ((u, v) :: edges_u) := by
        rw [pathEdges_succ_step b.par k v u hvs hpid, hpe_u]
      -- the fst components of `edges_u` are exactly the chain nodes below `u`
      have hfst_mem : ∀ w : Node, w ∈ edges_u.map Prod.fst → d w ≤ d u := by
        intro w hw
        exact (hmem_u w (List.mem_cons_of_mem u hw)).2
      have hsnd_mem : ∀ w : Node, w ∈ edges_u.map Prod.snd → d w ≤ d u := by
        intro w hw
        rw [hsnd_u] at hw
        have : w ∈ u :: edges_u.map Prod.fst := List.dropLast_prefix _ |>.subset hw
        exact (hmem_u w this).2
      refine ⟨(u, v) :: edges_u, hpe, ?_, ?_, ?_, ?_, ?_, ?_, ?_, ?_⟩
      · intro n hn
        rcases List.mem_cons.mp hn with he | hn'
        · exact ⟨he ▸ hv, he ▸ le_refl _⟩
        · have hn'' : n ∈ u :: edges_u.map Prod.fst := by simpa using hn'
          obtain ⟨ht, hle⟩ := hmem_u n hn''
          exact ⟨ht, le_trans hle (le_of_lt hdu)⟩
      · show v :: edges_u.map Prod.snd = (v :: u :: edges_u.map Prod.fst).dropLast
        rw [List.dropLast_cons₂]
        rw [← hsnd_u]
      · show (v :: u :: edges_u.map Prod.fst).getLast? = some SOURCE_NODE_ID
        rw [List.getLast?_cons_cons]
        exact hlast_u
      · show (v :: u :: edges_u.map Prod.fst).Nodup
        rw [List.nodup_cons]
        refine ⟨?_, hnd_u⟩
        intro hvmem
        obtain ⟨_, hle⟩ := hmem_u v hvmem
        omega
      · intro pc hpc
        rcases List.mem_cons.mp hpc with he | hpc'
        · subst he
          exact ⟨hut, hv, hur, hpid⟩
        · exact hprops_u pc hpc'
      · intro p2 hp2
        have hpid2 : (p2.get v).parent_id_ = (u.val : Int) := by
          rw [hp2 v hv hvs, hpid]
        rw [pathEdges_succ_step p2 k v u hvs hpid2, hcong_u p2 hp2]
      · rw [List.nodup_cons]
        refine ⟨?_, hednd_u⟩
        intro hmem
        have : v ∈ edges_u.map Prod.snd := List.mem_map.mpr ⟨(u, v), hmem, rfl⟩
        have := hsnd_mem v this
        omega
      · intro pc hpc
        rcases List.mem_cons.mp hpc with he | hpc'
        · subst he
          constructor
          · intro he'
            have huv : u = v := he'
            rw [huv] at hdu
            exact absurd hdu (lt_irrefl _)
          · intro habs
            rcases List.mem_cons.mp habs with he2 | hmem2
            · have : u = v := congrArg Prod.snd he2
              rw [this] at hdu
              exact absurd hdu (lt_irrefl _)
            · have : v ∈ edges_u.map Prod.fst := List.mem_map.mpr ⟨(v, u), hmem2, rfl⟩
              have := hfst_mem v this
              omega
        · refine ⟨(hrev_u pc hpc').1, ?_⟩
          intro habs
          rcases List.mem_cons.mp habs with he2 | hmem2
          · have h1 : pc.2 = u := congrArg Prod.fst he2
            have h2 : pc.1 = v := congrArg Prod.snd he2
            have : v ∈ edges_u.map Prod.fst := List.mem_map.mpr ⟨pc, hpc', h2⟩
            have := hfst_mem v this
            omega
          · exact (hrev_u pc hpc').2 hmem2


theorem bfs_chain (g : Graph) (ap : Parents)
    (h : (bfsRun g ap).trav.get TARGET_NODE_ID = true) :
    ∃ edges, pathEdges (bfsRun g ap).par NODE_COUNT TARGET_NODE_ID = some edges ∧
      ChainSpec g (bfsRun g ap) edges ∧
      (∀ p2 : Parents, (∀ w, (bfsRun g ap).trav.get w = true → w ≠ SOURCE_NODE_ID →
          (p2.get w).parent_id_ = ((bfsRun g ap).par.get w).parent_id_) →
        pathEdges p2 NODE_COUNT TARGET_NODE_ID = some edges) := by
  obtain ⟨d, hd⟩ := (bfsRun_bfsInv g ap).2.2.2.2
  have hcard : (Finset.univ.filter
      (fun u => (bfsRun g ap).trav.get u = true ∧ d u < d TARGET_NODE_ID)).card
        < NODE_COUNT := by
    have hsub : (Finset.univ.filter
        (fun u => (bfsRun g ap).trav.get u = true ∧ d u < d TARGET_NODE_ID))
          ⊆ Finset.univ.erase TARGET_NODE_ID := by
      intro w hw
      rw [Finset.mem_filter] at hw
      rw [Finset.mem_erase]
      refine ⟨?_, Finset.mem_univ w⟩
      intro he
      rw [he] at hw
      exact absurd hw.2.2 (lt_irrefl _)
    have h1 := Finset.card_le_card hsub
    have h2 : (Finset.univ.erase TARGET_NODE_ID).card = 5 := by
      rw [Finset.card_erase_of_mem (Finset.mem_univ _)]
      simp
    have h3 : NODE_COUNT = 6 := rfl
    omega
  obtain ⟨edges, h1, _, h3, h4, h5, h6, h7, h8, h9⟩ :=
    pathEdges_ok g (bfsRun g ap) d hd NODE_COUNT TARGET_NODE_ID h hcard
  exact ⟨edges, h1, ⟨h6, h3, h4, h5, h8, h9⟩, h7⟩

/-! ### Counting chain-edge endpoints -/

theorem countP_le_one_of_nodup {α : Type} [DecidableEq α] (n : α) :
    ∀ l : List α, l.Nodup → l.countP (fun w => w = n) ≤ 1 := by
  intro l
  induction l with
  | nil => intro _; simp
  | cons a t ih =>
    intro hnd
    rw [List.countP_cons]
    by_cases ha : a = n
    · have hzero : t.countP (fun w => w = n) = 0 := by
        rw [List.countP_eq_zero]
        intro w hw
        simp only [decide_eq_true_eq]
        intro hwn
        exact (List.nodup_cons.mp hnd).1 (ha ▸ hwn ▸ hw)
      simp [hzero, ha]
    · have := ih (List.nodup_cons.mp hnd).2
      simp [ha]
      omega

theorem countP_pos_of_mem {α : Type} [DecidableEq α] (n : α) (l : List α) (h : n ∈ l) :
    1 ≤ l.countP (fun w => w = n) := by
  have : 0 < l.countP (fun w => w = n) := by
    rw [List.countP_pos_iff]
    exact ⟨n, h, by simp⟩
  omega

theorem countP_eq_one_of_nodup_mem {α : Type} [DecidableEq α] (n : α) (l : List α) (hnd : l.Nodup) (h : n ∈ l) :
    l.countP (fun w => w = n) = 1 := by
  have h1 := countP_le_one_of_nodup n l hnd
  have h2 := countP_pos_of_mem n l h
  omega

/-- Endpoint counts of a chain from target to source: the source is the
first component of exactly one edge and the second of none, the target is
the second component of exactly one edge and the first of none, and every
other node occurs equally often as a first and as a second component. -/
theorem chain_counts (g : Graph) (b : BfsSt) (edges : List (Node × Node))
    (hc : ChainSpec g b edges) :
    (edges.countP (fun pc => pc.1 = SOURCE_NODE_ID) = 1) ∧
    (edges.countP (fun pc => pc.2 = SOURCE_NODE_ID) = 0) ∧
    (edges.countP (fun pc => pc.1 = TARGET_NODE_ID) = 0) ∧
    (edges.countP (fun pc => pc.2 = TARGET_NODE_ID) = 1) ∧
    (∀ n : Node, n ≠ SOURCE_NODE_ID → n ≠ TARGET_NODE_ID →
      edges.countP (fun pc => pc.1 = n) = edges.countP (fun pc => pc.2 = n)) := by
  obtain ⟨_, hsnd, hlast, hnd, _, _⟩ := hc
  set N : List Node := TARGET_NODE_ID :: edges.map Prod.fst with hN
  have hNne : N ≠ [] := by simp [hN]
  have hlast_eq : N.getLast hNne = SOURCE_NODE_ID := by
    have := List.getLast?_eq_getLast N hNne
    rw [this] at hlast
    exact (Option.some.injEq _ _).mp hlast
  have hsplit : N.dropLast ++ [SOURCE_NODE_ID] = N := by
    rw [← hlast_eq]
    exact List.dropLast_append_getLast hNne
  -- translate the countP over pairs into counts over node lists
  have hfst : ∀ n : Node, edges.countP (fun pc => pc.1 = n)
      = (edges.map Prod.fst).countP (fun w => w = n) := by
    intro n
    rw [List.countP_map]
    rfl
  have hsnd' : ∀ n : Node, edges.countP (fun pc => pc.2 = n)
      = (edges.map Prod.snd).countP (fun w => w = n) := by
    intro n
    rw [List.countP_map]
    rfl
  have htail : ∀ n : Node, (edges.map Prod.fst).countP (fun w => w = n)
      + (if TARGET_NODE_ID = n then 1 else 0) = N.countP (fun w => w = n) := by
    intro n
    rw [hN, List.countP_cons]
    simp
  have hdrop : ∀ n : Node, (edges.map Prod.snd).countP (fun w => w = n)
      + (if SOURCE_NODE_ID = n then 1 else 0) = N.countP (fun w => w = n) := by
    intro n
    rw [hsnd]
    conv_rhs => rw [← hsplit]
    rw [List.countP_append]
    simp [List.countP_cons]
  have hsrcN : N.countP (fun w => w = SOURCE_NODE_ID) = 1 := by
    apply countP_eq_one_of_nodup_mem _ _ hnd
    rw [← hsplit]
    exact List.mem_append_right _ (List.mem_singleton_self _)
  have htgtN : N.countP (fun w => w = TARGET_NODE_ID) = 1 := by
    apply countP_eq_one_of_nodup_mem _ _ hnd
    rw [hN]
    exact List.mem_cons_self _ _
  have hne_ts : (TARGET_NODE_ID : Node) ≠ SOURCE_NODE_ID := by decide
  refine ⟨?_, ?_, ?_, ?_, ?_⟩
  · rw [hfst]
    have := htail SOURCE_NODE_ID
    rw [if_neg hne_ts, hsrcN] at this
    omega
  · rw [hsnd']
    have := hdrop SOURCE_NODE_ID
    rw [if_pos rfl, hsrcN] at this
    omega
  · rw [hfst]
    have := htail TARGET_NODE_ID
    rw [if_pos rfl, htgtN] at this
    omega
  · rw [hsnd']
    have := hdrop TARGET_NODE_ID
    rw [if_neg (by decide), htgtN] at this
    omega
  · intro n hns hnt
    rw [hfst, hsnd']
    have h1 := htail n
    have h2 := hdrop n
    rw [if_neg (fun he => hnt he.symm)] at h1
    rw [if_neg (fun he => hns he.symm)] at h2
    omega

/-- A chain from the target is non-empty. -/
theorem chain_ne_nil (g : Graph) (b : BfsSt) (edges : List (Node × Node))
    (hc : ChainSpec g b edges) : edges ≠ [] := by
  intro he
  obtain ⟨_, _, hlast, _, _, _⟩ := hc
  rw [he] at hlast
  simp at hlast
  exact absurd hlast (by decide)

/-! ### The bottleneck computation -/

theorem minFlowInPath_le (g : Graph) (edges : List (Node × Node)) :
    ∀ pc ∈ edges, minFlowInPath g edges ≤ resCap g pc.1 pc.2 := by
  intro pc hpc
  apply foldl_reaches (fun m e => if resCap g e.1 e.2 < m then resCap g e.1 e.2 else m)
    (fun m => m ≤ resCap g pc.1 pc.2) ?_ edges INT_MAX pc hpc
  · intro m
    show (if resCap g pc.1 pc.2 < m then resCap g pc.1 pc.2 else m) ≤ resCap g pc.1 pc.2
    split
    · exact le_refl _
    · rename_i hlt
      omega
  · intro m e hm
    show (if resCap g e.1 e.2 < m then resCap g e.1 e.2 else m) ≤ resCap g pc.1 pc.2
    split
    · rename_i hlt
      omega
    · exact hm

theorem minFlowInPath_pos (g : Graph) (edges : List (Node × Node))
    (h : ∀ pc ∈ edges, 0 < resCap g pc.1 pc.2) : 0 < minFlowInPath g edges := by
  apply foldl_preserves (fun m e => if resCap g e.1 e.2 < m then resCap g e.1 e.2 else m)
    (fun m => 0 < m) edges INT_MAX (by decide)
  intro m e he hm
  show 0 < if resCap g e.1 e.2 < m then resCap g e.1 e.2 else m
  split
  · exact h e he
  · exact hm

theorem minFlowInPath_attained (g : Graph) (edges : List (Node × Node)) :
    minFlowInPath g edges = INT_MAX ∨
      ∃ pc ∈ edges, minFlowInPath g edges = resCap g pc.1 pc.2 := by
  apply foldl_preserves (fun m e => if resCap g e.1 e.2 < m then resCap g e.1 e.2 else m)
    (fun m => m = INT_MAX ∨ ∃ pc ∈ edges, m = resCap g pc.1 pc.2) edges INT_MAX (Or.inl rfl)
  intro m e he hm
  show (if resCap g e.1 e.2 < m then resCap g e.1 e.2 else m) = INT_MAX ∨
    ∃ pc ∈ edges, (if resCap g e.1 e.2 < m then resCap g e.1 e.2 else m) = resCap g pc.1 pc.2
  split
  · exact Or.inr ⟨e, he, rfl⟩
  · exact hm

theorem countP_eq_zero_of_not_mem {α : Type} [DecidableEq α] (n : α) (l : List α) (h : n ∉ l) :
    l.countP (fun w => w = n) = 0 := by
  rw [List.countP_eq_zero]
  intro w hw
  simp only [decide_eq_true_eq]
  intro hwn
  exact h (hwn ▸ hw)

/-! ### Effect of the residual updates on graph entries -/

theorem setResidual_res (g : Graph) (u v : Node) (r : Int) (a b : Node) :
    resCap (setResidual g u v r) a b = if a = u ∧ b = v then r else resCap g a b := by
  unfold setResidual resCap
  rw [Vec6.get_set]
  by_cases hau : a = u
  · rw [if_pos hau, Vec6.get_set]
    by_cases hbv : b = v
    · rw [if_pos hbv, if_pos ⟨hau, hbv⟩]
    · rw [if_neg hbv, if_neg (fun hc => hbv hc.2), hau]
  · rw [if_neg hau, if_neg (fun hc => hau hc.1)]

theorem setResidual_orig (g : Graph) (u v : Node) (r : Int) (a b : Node) :
    origCap (setResidual g u v r) a b = origCap g a b := by
  unfold setResidual origCap
  rw [Vec6.get_set]
  by_cases hau : a = u
  · rw [if_pos hau, Vec6.get_set]
    by_cases hbv : b = v
    · rw [if_pos hbv, hau, hbv]
    · rw [if_neg hbv, hau]
  · rw [if_neg hau]

theorem augmentEdge_res (delta : Int) (g : Graph) (e : Node × Node) (a b : Node) :
    resCap (augmentEdge delta g e) a b = resCap g a b
      - (if e = (a, b) then delta else 0) + (if e = (b, a) then delta else 0) := by
  obtain ⟨p, c⟩ := e
  show resCap (setResidual (setResidual g p c (resCap g p c - delta)) c p
      (resCap (setResidual g p c (resCap g p c - delta)) c p + delta)) a b = _
  rw [setResidual_res, setResidual_res, setResidual_res]
  by_cases h1 : a = c ∧ b = p
  · obtain ⟨ha, hb⟩ := h1
    rw [if_pos ⟨ha, hb⟩, ha, hb]
    by_cases hcp : c = p
    · rw [hcp]
      simp
    · rw [if_neg (fun hc => hcp hc.1),
        if_neg (fun hc => hcp ((congrArg Prod.fst hc).symm)), if_pos rfl]
      ring
  · rw [if_neg h1]
    by_cases h2 : a = p ∧ b = c
    · obtain ⟨ha, hb⟩ := h2
      rw [if_pos ⟨ha, hb⟩, ha, hb, if_pos rfl,
        if_neg (fun hc => h1 ⟨ha.trans (congrArg Prod.fst hc), hb.trans (congrArg Prod.snd hc)⟩)]
      ring
    · rw [if_neg h2,
        if_neg (fun hc => h2 ⟨(congrArg Prod.fst hc).symm, (congrArg Prod.snd hc).symm⟩),
        if_neg (fun hc => h1 ⟨(congrArg Prod.snd hc).symm, (congrArg Prod.fst hc).symm⟩)]
      ring

theorem augmentEdge_orig (delta : Int) (g : Graph) (e : Node × Node) (a b : Node) :
    origCap (augmentEdge delta g e) a b = origCap g a b := by
  obtain ⟨p, c⟩ := e
  show origCap (setResidual (setResidual g p c (resCap g p c - delta)) c p _) a b = _
  rw [setResidual_orig, setResidual_orig]

theorem augment_res (delta : Int) (edges : List (Node × Node)) :
    ∀ (g : Graph) (a b : Node),
    resCap (augment g delta edges) a b = resCap g a b
      - delta * (edges.countP (fun pc => pc = (a, b)) : Int)
      + delta * (edges.countP (fun pc => pc = (b, a)) : Int) := by
  induction edges with
  | nil =>
    intro g a b
    simp [augment]
  | cons e rest ih =>
    intro g a b
    show resCap (augment (augmentEdge delta g e) delta rest) a b = _
    rw [ih (augmentEdge delta g e) a b, augmentEdge_res,
      List.countP_cons, List.countP_cons]
    push_cast
    by_cases h1 : e = (a, b)
    · by_cases h2 : e = (b, a)
      · have hab : a = b := congrArg Prod.fst (h1.symm.trans h2)
        simp [h1, hab]
      · have hne : ¬(a = b ∧ b = a) := fun hc => h2 (h1.trans (Prod.ext_iff.mpr ⟨hc.1, hc.2⟩))
        simp [h1, hne]
        ring
    · by_cases h2 : e = (b, a)
      · have hne : ¬(b = a ∧ a = b) := fun hc => h1 (h2.trans (Prod.ext_iff.mpr ⟨hc.1, hc.2⟩))
        simp [h1, h2, hne]
        ring
      · simp [h1, h2]

theorem augment_orig (delta : Int) (edges : List (Node × Node)) :
    ∀ (g : Graph) (a b : Node),
    origCap (augment g delta edges) a b = origCap g a b := by
  induction edges with
  | nil =>
    intro g a b
    rfl
  | cons e rest ih =>
    intro g a b
    show origCap (augment (augmentEdge delta g e) delta rest) a b = _
    rw [ih (augmentEdge delta g e) a b, augmentEdge_orig]

/-- Residual capacities of a forward/backward pair sum to a conserved
value under augmentation. -/
theorem augment_pair (delta : Int) (edges : List (Node × Node)) (g : Graph) (u v : Node) :
    resCap (augment g delta edges) u v + resCap (augment g delta edges) v u
      = resCap g u v + resCap g v u := by
  rw [augment_res, augment_res]
  ring

/-! ### Effect of the parent resets -/

theorem resetParents_not_mem (edges : List (Node × Node)) :
    ∀ (ap : Parents) (c : Node), c ∉ edges.map Prod.snd →
      (resetParents ap edges).get c = ap.get c := by
  induction edges with
  | nil => intro ap c _; rfl
  | cons e rest ih =>
    intro ap c hc
    have hc1 : c ≠ e.2 := by
      intro he
      exact hc (by simp [he])
    have hc2 : c ∉ rest.map Prod.snd := by
      intro hmem
      exact hc (by simp [hmem])
    show (resetParents (ap.set e.2 ⟨(ap.get e.2).id_, INVALID_PARENT⟩) rest).get c = _
    rw [ih _ c hc2, Vec6.get_set_other _ _ _ _ hc1]

theorem resetParents_mem (edges : List (Node × Node)) :
    ∀ (ap : Parents) (c : Node), c ∈ edges.map Prod.snd →
      ((resetParents ap edges).get c).parent_id_ = INVALID_PARENT := by
  induction edges with
  | nil => intro ap c hc; cases hc
  | cons e rest ih =>
    intro ap c hc
    show ((resetParents (ap.set e.2 ⟨(ap.get e.2).id_, INVALID_PARENT⟩) rest).get c).parent_id_ = _
    by_cases hmem : c ∈ rest.map Prod.snd
    · exact ih _ c hmem
    · have hce : c = e.2 := by
        rw [List.map_cons] at hc
        rcases List.mem_cons.mp hc with h | h
        · exact h
        · exact absurd h hmem
      rw [resetParents_not_mem rest _ c hmem, hce, Vec6.get_set_same]

/-! ### Sums of residual capacities along rows and columns -/

theorem sum_ite_pair_fst (e : Node × Node) (n : Node) :
    (∑ v : Node, (if e = (n, v) then (1 : Int) else 0)) = if e.1 = n then 1 else 0 := by
  by_cases h : e.1 = n
  · rw [if_pos h]
    have hiff : ∀ v : Node, (e = (n, v)) ↔ (v = e.2) := by
      intro v
      constructor
      · intro he
        exact (congrArg Prod.snd he).symm
      · intro hv
        rw [hv]
        exact Prod.ext_iff.mpr ⟨h, rfl⟩
    calc (∑ v : Node, (if e = (n, v) then (1 : Int) else 0))
        = ∑ v : Node, (if v = e.2 then (1 : Int) else 0) :=
          Finset.sum_congr rfl (fun v _ => if_congr (hiff v) rfl rfl)
      _ = 1 := by rw [Finset.sum_ite_eq' Finset.univ e.2 (fun _ => (1 : Int))]; simp
  · rw [if_neg h]
    apply Finset.sum_eq_zero
    intro v _
    rw [if_neg]
    intro he
    exact h (congrArg Prod.fst he)

theorem sum_ite_pair_snd (e : Node × Node) (n : Node) :
    (∑ u : Node, (if e = (u, n) then (1 : Int) else 0)) = if e.2 = n then 1 else 0 := by
  by_cases h : e.2 = n
  · rw [if_pos h]
    have hiff : ∀ u : Node, (e = (u, n)) ↔ (u = e.1) := by
      intro u
      constructor
      · intro he
        exact (congrArg Prod.fst he).symm
      · intro hu
        rw [hu]
        exact Prod.ext_iff.mpr ⟨rfl, h⟩
    calc (∑ u : Node, (if e = (u, n) then (1 : Int) else 0))
        = ∑ u : Node, (if u = e.1 then (1 : Int) else 0) :=
          Finset.sum_congr rfl (fun u _ => if_congr (hiff u) rfl rfl)
      _ = 1 := by rw [Finset.sum_ite_eq' Finset.univ e.1 (fun _ => (1 : Int))]; simp
  · rw [if_neg h]
    apply Finset.sum_eq_zero
    intro u _
    rw [if_neg]
    intro he
    exact h (congrArg Prod.snd he)

theorem sum_countP_fst (edges : List (Node × Node)) (n : Node) :
    (∑ v : Node, (edges.countP (fun pc => pc = (n, v)) : Int))
      = (edges.countP (fun pc => pc.1 = n) : Int) := by
  induction edges with
  | nil => simp
  | cons e rest ih =>
    have hsplit : ∀ v : Node, ((e :: rest).countP (fun pc => pc = (n, v)) : Int)
        = (rest.countP (fun pc => pc = (n, v)) : Int) + (if e = (n, v) then 1 else 0) := by
      intro v
      rw [List.countP_cons]
      push_cast
      by_cases h : e = (n, v)
      · simp [h]
      · simp [h]
    rw [Finset.sum_congr rfl (fun v _ => hsplit v), Finset.sum_add_distrib, ih,
      sum_ite_pair_fst, List.countP_cons]
    push_cast
    by_cases h : e.1 = n
    · simp [h]
    · simp [h]

theorem sum_countP_snd (edges : List (Node × Node)) (n : Node) :
    (∑ u : Node, (edges.countP (fun pc => pc = (u, n)) : Int))
      = (edges.countP (fun pc => pc.2 = n) : Int) := by
  induction edges with
  | nil => simp
  | cons e rest ih =>
    have hsplit : ∀ u : Node, ((e :: rest).countP (fun pc => pc = (u, n)) : Int)
        = (rest.countP (fun pc => pc = (u, n)) : Int) + (if e = (u, n) then 1 else 0) := by
      intro u
      rw [List.countP_cons]
      push_cast
      by_cases h : e = (u, n)
      · simp [h]
      · simp [h]
    rw [Finset.sum_congr rfl (fun u _ => hsplit u), Finset.sum_add_distrib, ih,
      sum_ite_pair_snd, List.countP_cons]
    push_cast
    by_cases h : e.2 = n
    · simp [h]
    · simp [h]


theorem augment_rowRes (g : Graph) (delta : Int) (edges : List (Node × Node)) (n : Node) :
    rowRes (augment g delta edges) n = rowRes g n
      - delta * (edges.countP (fun pc => pc.1 = n) : Int)
      + delta * (edges.countP (fun pc => pc.2 = n) : Int) := by
  unfold rowRes
  rw [Finset.sum_congr rfl (fun v _ => augment_res delta edges g n v)]
  rw [Finset.sum_add_distrib, Finset.sum_sub_distrib, ← Finset.mul_sum, ← Finset.mul_sum,
    sum_countP_fst]
  have : (∑ v : Node, (edges.countP (fun pc => pc = (v, n)) : Int))
      = (edges.countP (fun pc => pc.2 = n) : Int) := sum_countP_snd edges n
  rw [this]

theorem augment_colRes (g : Graph) (delta : Int) (edges : List (Node × Node)) (n : Node) :
    colRes (augment g delta edges) n = colRes g n
      - delta * (edges.countP (fun pc => pc.2 = n) : Int)
      + delta * (edges.countP (fun pc => pc.1 = n) : Int) := by
  unfold colRes
  rw [Finset.sum_congr rfl (fun u _ => augment_res delta edges g u n)]
  rw [Finset.sum_add_distrib, Finset.sum_sub_distrib, ← Finset.mul_sum, ← Finset.mul_sum,
    sum_countP_snd]
  have : (∑ u : Node, (edges.countP (fun pc => pc = (n, u)) : Int))
      = (edges.countP (fun pc => pc.1 = n) : Int) := sum_countP_fst edges n
  rw [this]

/-! ### Per-edge effect of an augmentation along a duplicate-free path -/

theorem augment_res_fwd (g : Graph) (delta : Int) (edges : List (Node × Node))
    (hnd : edges.Nodup) (hrev : ∀ pc ∈ edges, (pc.2, pc.1) ∉ edges)
    (pc : Node × Node) (hpc : pc ∈ edges) :
    resCap (augment g delta edges) pc.1 pc.2 = resCap g pc.1 pc.2 - delta := by
  rw [augment_res]
  have h1 : edges.countP (fun x => x = (pc.1, pc.2)) = 1 := by
    rw [Prod.mk.eta]
    exact countP_eq_one_of_nodup_mem pc edges hnd hpc
  have h2 : edges.countP (fun x => x = (pc.2, pc.1)) = 0 :=
    countP_eq_zero_of_not_mem _ edges (hrev pc hpc)
  rw [h1, h2]
  push_cast
  ring

theorem augment_res_bwd (g : Graph) (delta : Int) (edges : List (Node × Node))
    (hnd : edges.Nodup) (hrev : ∀ pc ∈ edges, (pc.2, pc.1) ∉ edges)
    (pc : Node × Node) (hpc : pc ∈ edges) :
    resCap (augment g delta edges) pc.2 pc.1 = resCap g pc.2 pc.1 + delta := by
  rw [augment_res]
  have h1 : edges.countP (fun x => x = (pc.2, pc.1)) = 0 :=
    countP_eq_zero_of_not_mem _ edges (hrev pc hpc)
  have h2 : edges.countP (fun x => x = (pc.1, pc.2)) = 1 := by
    rw [Prod.mk.eta]
    exact countP_eq_one_of_nodup_mem pc edges hnd hpc
  rw [h1, h2]
  push_cast
  ring

theorem augment_res_untouched (g : Graph) (delta : Int) (edges : List (Node × Node))
    (a b : Node) (h1 : (a, b) ∉ edges) (h2 : (b, a) ∉ edges) :
    resCap (augment g delta edges) a b = resCap g a b := by
  rw [augment_res, countP_eq_zero_of_not_mem _ edges h1, countP_eq_zero_of_not_mem _ edges h2]
  push_cast
  ring

theorem augment_nonneg (g : Graph) (delta : Int) (edges : List (Node × Node))
    (hnd : edges.Nodup) (hrev : ∀ pc ∈ edges, (pc.2, pc.1) ∉ edges)
    (hle : ∀ pc ∈ edges, delta ≤ resCap g pc.1 pc.2) (hdelta : 0 ≤ delta)
    (hg : ∀ u v, 0 ≤ resCap g u v) :
    ∀ u v, 0 ≤ resCap (augment g delta edges) u v := by
  intro u v
  by_cases hf : (u, v) ∈ edges
  · have heq : resCap (augment g delta edges) u v = resCap g u v - delta :=
      augment_res_fwd g delta edges hnd hrev (u, v) hf
    have hle' : delta ≤ resCap g u v := hle (u, v) hf
    rw [heq]
    omega
  · by_cases hb : (v, u) ∈ edges
    · have heq : resCap (augment g delta edges) u v = resCap g u v + delta :=
        augment_res_bwd g delta edges hnd hrev (v, u) hb
      rw [heq]
      have := hg u v
      omega
    · rw [augment_res_untouched g delta edges u v hf hb]
      exact hg u v

/-! ### The parent buffer does not influence the BFS traversal -/


theorem bfsScanStep_lockstep (g : Graph) (n : Node) (b b' : BfsSt) (next : Node)
    (h : PairInv b b') : PairInv (bfsScanStep g n b next) (bfsScanStep g n b' next) := by
  obtain ⟨ht, hq, hp⟩ := h
  unfold bfsScanStep
  rw [← ht]
  by_cases hc : b.trav.get next = false ∧ 0 < resCap g n next
  · rw [if_pos hc, if_pos hc]
    refine ⟨by rw [ht], by rw [hq], ?_⟩
    intro v hvs hv
    show ((b.par.set next _).get v).parent_id_ = ((b'.par.set next _).get v).parent_id_
    by_cases hvn : v = next
    · rw [hvn, Vec6.get_set_same, Vec6.get_set_same]
    · rw [Vec6.get_set_other _ _ _ _ hvn, Vec6.get_set_other _ _ _ _ hvn]
      apply hp v hvs
      have : (b.trav.set next true).get v = true := hv
      rwa [Vec6.get_set_other _ _ _ _ hvn] at this
  · rw [if_neg hc, if_neg hc]
    exact ⟨ht, hq, hp⟩

theorem bfsScan_lockstep (g : Graph) (n : Node) :
    ∀ (l : List Node) (b b' : BfsSt), PairInv b b' →
      PairInv (l.foldl (bfsScanStep g n) b) (l.foldl (bfsScanStep g n) b')
  | [], _, _, h => h
  | x :: l, b, b', h =>
    bfsScan_lockstep g n l (bfsScanStep g n b x) (bfsScanStep g n b' x)
      (bfsScanStep_lockstep g n b b' x h)

theorem bfsLoop_lockstep (g : Graph) :
    ∀ fuel (b b' : BfsSt), PairInv b b' →
      PairInv (bfsLoop g fuel b) (bfsLoop g fuel b') := by
  intro fuel
  induction fuel with
  | zero => intro b b' h; exact h
  | succ fuel ih =>
    intro b b' h
    rcases hq : b.q with _ | ⟨node_id, rest⟩
    · have hq' : b'.q = [] := by rw [← h.2.1, hq]
      rw [bfsLoop_succ_nil g fuel b hq, bfsLoop_succ_nil g fuel b' hq']
      exact h
    · have hq' : b'.q = node_id :: rest := by rw [← h.2.1, hq]
      rw [bfsLoop_succ_cons g fuel b node_id rest hq,
        bfsLoop_succ_cons g fuel b' node_id rest hq']
      apply ih
      apply bfsScan_lockstep
      exact ⟨h.1, rfl, h.2.2⟩

theorem bfsRun_lockstep (g : Graph) (ap ap' : Parents) :
    PairInv (bfsRun g ap) (bfsRun g ap') := by
  apply bfsLoop_lockstep
  refine ⟨rfl, rfl, ?_⟩
  intro v hvs hv
  exfalso
  have : ((Vec6.ofFn (fun _ => false)).set SOURCE_NODE_ID true).get v = true := hv
  rw [Vec6.get_set_other _ _ _ _ hvs, Vec6.get_ofFn] at this
  cases this

theorem bfsRun_trav_indep (g : Graph) (ap ap' : Parents) :
    (bfsRun g ap).trav = (bfsRun g ap').trav :=
  (bfsRun_lockstep g ap ap').1

/-! ### The `fordFulkerson` loop invariant -/


theorem ffInit_inv (g0 : Graph) (hres : ∀ u v, 0 ≤ resCap g0 u v) :
    FFInv g0 (ffInit g0) := by
  refine ⟨fun u v => rfl, hres, fun u v => rfl, ?_, ?_⟩
  · intro n _ _
    apply Finset.sum_eq_zero
    intro u _
    show resCap g0 u n - resCap g0 u n = 0
    ring
  · show (∑ v : Node, (resCap g0 SOURCE_NODE_ID v - resCap g0 SOURCE_NODE_ID v)) = 0
    apply Finset.sum_eq_zero
    intro v _
    ring

theorem ffLoop_zero_unfold (st : FFSt) :
    ffLoop 0 st =
      if (bfsRun st.graph st.augmentingPath).trav.get TARGET_NODE_ID = true
      then none else some (st.max_flow, st.graph) := rfl

theorem ffLoop_succ_unfold (fuel : Nat) (st : FFSt) :
    ffLoop (fuel + 1) st =
      if (bfsRun st.graph st.augmentingPath).trav.get TARGET_NODE_ID = true then
        match pathEdges (bfsRun st.graph st.augmentingPath).par NODE_COUNT TARGET_NODE_ID with
        | none => none
        | some edges => ffLoop fuel (ffIter st edges)
      else some (st.max_flow, st.graph) := rfl

theorem ffLoop_not_found (fuel : Nat) (st : FFSt)
    (h : (bfsRun st.graph st.augmentingPath).trav.get TARGET_NODE_ID = false) :
    ffLoop fuel st = some (st.max_flow, st.graph) := by
  cases fuel with
  | zero =>
    rw [ffLoop_zero_unfold, if_neg (by rw [h]; exact Bool.false_ne_true)]
  | succ fuel =>
    rw [ffLoop_succ_unfold, if_neg (by rw [h]; exact Bool.false_ne_true)]

theorem ffLoop_found_step (fuel : Nat) (st : FFSt) (edges : List (Node × Node))
    (hf : (bfsRun st.graph st.augmentingPath).trav.get TARGET_NODE_ID = true)
    (hpe : pathEdges (bfsRun st.graph st.augmentingPath).par NODE_COUNT TARGET_NODE_ID
      = some edges) :
    ffLoop (fuel + 1) st = ffLoop fuel (ffIter st edges) := by
  rw [ffLoop_succ_unfold, if_pos hf, hpe]

/-- One successful iteration of the loop preserves the invariant, adds a
strictly positive bottleneck to the flow, and strictly decreases the
total residual capacity leaving the source. -/
theorem ffStep_facts (g0 : Graph) (st : FFSt) (edges : List (Node × Node))
    (hf : (bfsRun st.graph st.augmentingPath).trav.get TARGET_NODE_ID = true)
    (hpe : pathEdges (bfsRun st.graph st.augmentingPath).par NODE_COUNT TARGET_NODE_ID
      = some edges)
    (hinv : FFInv g0 st) :
    FFInv g0 (ffIter st edges) ∧
    st.max_flow + 1 ≤ (ffIter st edges).max_flow ∧
    rowRes (ffIter st edges).graph SOURCE_NODE_ID + 1 ≤ rowRes st.graph SOURCE_NODE_ID := by
  obtain ⟨edges', hpe', hcs, _⟩ := bfs_chain st.graph st.augmentingPath hf
  rw [hpe] at hpe'
  have hee : edges = edges' := Option.some.inj hpe'
  subst hee
  obtain ⟨hprops, hsnd, hlast, hndN, hnd, hrevself⟩ := hcs
  have hrev : ∀ pc ∈ edges, (pc.2, pc.1) ∉ edges := fun pc h => (hrevself pc h).2
  have hpos : 0 < minFlowInPath st.graph edges :=
    minFlowInPath_pos _ _ (fun pc h => (hprops pc h).2.2.1)
  have hle : ∀ pc ∈ edges, minFlowInPath st.graph edges ≤ resCap st.graph pc.1 pc.2 :=
    minFlowInPath_le _ _
  obtain ⟨c1, c2, c3, c4, c5⟩ :=
    chain_counts st.graph _ edges ⟨hprops, hsnd, hlast, hndN, hnd, hrevself⟩
  obtain ⟨i1, i2, i3, i4, i5⟩ := hinv
  have hgr : (ffIter st edges).graph = augment st.graph (minFlowInPath st.graph edges) edges := rfl
  have hmf : (ffIter st edges).max_flow = st.max_flow + minFlowInPath st.graph edges := rfl
  have hrow : rowRes (ffIter st edges).graph SOURCE_NODE_ID
      = rowRes st.graph SOURCE_NODE_ID - minFlowInPath st.graph edges := by
    rw [hgr, augment_rowRes, c1, c2]
    push_cast
    ring
  refine ⟨⟨?_, ?_, ?_, ?_, ?_⟩, ?_, ?_⟩
  · intro u v
    rw [hgr, augment_orig]
    exact i1 u v
  · intro u v
    rw [hgr]
    exact augment_nonneg st.graph _ edges hnd hrev hle (le_of_lt hpos) i2 u v
  · intro u v
    rw [hgr, augment_pair]
    exact i3 u v
  · intro n hns hnt
    have hcol : colRes (ffIter st edges).graph n = colRes st.graph n := by
      rw [hgr, augment_colRes, c5 n hns hnt]
      ring
    have hsum : (∑ u : Node, pushedFlow g0 (ffIter st edges).graph u n)
        = (∑ u : Node, resCap g0 u n) - colRes (ffIter st edges).graph n := by
      unfold pushedFlow colRes
      rw [Finset.sum_sub_distrib]
    have hsum2 : (∑ u : Node, pushedFlow g0 st.graph u n)
        = (∑ u : Node, resCap g0 u n) - colRes st.graph n := by
      unfold pushedFlow colRes
      rw [Finset.sum_sub_distrib]
    rw [hsum, hcol, ← hsum2]
    exact i4 n hns hnt
  · have hsum : (∑ v : Node, pushedFlow g0 (ffIter st edges).graph SOURCE_NODE_ID v)
        = (∑ v : Node, resCap g0 SOURCE_NODE_ID v)
          - rowRes (ffIter st edges).graph SOURCE_NODE_ID := by
      unfold pushedFlow rowRes
      rw [Finset.sum_sub_distrib]
    have hsum2 : (∑ v : Node, pushedFlow g0 st.graph SOURCE_NODE_ID v)
        = (∑ v : Node, resCap g0 SOURCE_NODE_ID v) - rowRes st.graph SOURCE_NODE_ID := by
      unfold pushedFlow rowRes
      rw [Finset.sum_sub_distrib]
    rw [hsum, hrow, hmf, ← i5, hsum2]
    ring
  · rw [hmf]
    omega
  · rw [hrow]
    omega

/-- Ending state of a successful `ffLoop` run: the invariant holds for
the returned flow and graph, and the final `bfs` no longer reaches the
target. -/
theorem ffLoop_some_inv (g0 : Graph) :
    ∀ (fuel : Nat) (st : FFSt) (flow : Int) (gf : Graph), FFInv g0 st →
      ffLoop fuel st = some (flow, gf) →
      ∃ ap : Parents, FFInv g0 ⟨gf, ap, flow⟩ ∧
        (bfsRun gf ap).trav.get TARGET_NODE_ID = false := by
  intro fuel
  induction fuel with
  | zero =>
    intro st flow gf hinv hrun
    rw [ffLoop_zero_unfold] at hrun
    by_cases hf : (bfsRun st.graph st.augmentingPath).trav.get TARGET_NODE_ID = true
    · rw [if_pos hf] at hrun
      cases hrun
    · rw [if_neg hf] at hrun
      have h1 : (st.max_flow, st.graph) = (flow, gf) := Option.some.inj hrun
      have hfl : st.max_flow = flow := congrArg Prod.fst h1
      have hgf : st.graph = gf := congrArg Prod.snd h1
      subst hfl
      subst hgf
      simp only [Bool.not_eq_true] at hf
      exact ⟨st.augmentingPath, hinv, hf⟩
  | succ fuel ih =>
    intro st flow gf hinv hrun
    by_cases hf : (bfsRun st.graph st.augmentingPath).trav.get TARGET_NODE_ID = true
    · rcases hpe : pathEdges (bfsRun st.graph st.augmentingPath).par NODE_COUNT TARGET_NODE_ID
        with _ | edges
      · rw [ffLoop_succ_unfold, if_pos hf, hpe] at hrun
        simp at hrun
      · rw [ffLoop_found_step fuel st edges hf hpe] at hrun
        exact ih (ffIter st edges) flow gf (ffStep_facts g0 st edges hf hpe hinv).1 hrun
    · simp only [Bool.not_eq_true] at hf
      rw [ffLoop_not_found (fuel + 1) st hf] at hrun
      have h1 : (st.max_flow, st.graph) = (flow, gf) := Option.some.inj hrun
      have hfl : st.max_flow = flow := congrArg Prod.fst h1
      have hgf : st.graph = gf := congrArg Prod.snd h1
      subst hfl
      subst hgf
      exact ⟨st.augmentingPath, hinv, hf⟩

/-- Termination: with fuel exceeding the total residual capacity leaving
the source, the loop returns a result (it never runs out of fuel, and
the chain walk never gets stuck). -/
theorem ffLoop_terminates (g0 : Graph) :
    ∀ (n : Nat) (st : FFSt), FFInv g0 st →
      (rowRes st.graph SOURCE_NODE_ID).toNat < n →
      ∃ r, ffLoop n st = some r := by
  intro n
  induction n with
  | zero =>
    intro st _ hlt
    exact absurd hlt (by omega)
  | succ n ih =>
    intro st hinv hlt
    by_cases hf : (bfsRun st.graph st.augmentingPath).trav.get TARGET_NODE_ID = true
    · obtain ⟨edges, hpe, _, _⟩ := bfs_chain st.graph st.augmentingPath hf
      obtain ⟨hinv', _, hdec⟩ := ffStep_facts g0 st edges hf hpe hinv
      have hnn : 0 ≤ rowRes (ffIter st edges).graph SOURCE_NODE_ID := by
        apply Finset.sum_nonneg
        intro v _
        exact hinv'.2.1 SOURCE_NODE_ID v
      have hlt' : (rowRes (ffIter st edges).graph SOURCE_NODE_ID).toNat < n := by
        omega
      obtain ⟨r, hr⟩ := ih (ffIter st edges) hinv' hlt'
      exact ⟨r, by rw [ffLoop_found_step n st edges hf hpe]; exact hr⟩
    · simp only [Bool.not_eq_true] at hf
      exact ⟨(st.max_flow, st.graph), ffLoop_not_found (n + 1) st hf⟩

/-! ### Sum algebra for the cut argument -/

theorem antisym_sum_zero (f : Node → Node → Int) (hanti : ∀ u v, f u v = -f v u)
    (A : Finset Node) : (∑ u ∈ A, ∑ v ∈ A, f u v) = 0 := by
  have h1 : (∑ u ∈ A, ∑ v ∈ A, f u v) = ∑ v ∈ A, ∑ u ∈ A, f u v := Finset.sum_comm
  have h2 : (∑ v ∈ A, ∑ u ∈ A, f u v) = -(∑ v ∈ A, ∑ u ∈ A, f v u) := by
    calc (∑ v ∈ A, ∑ u ∈ A, f u v)
        = ∑ v ∈ A, ∑ u ∈ A, -f v u := by
          apply Finset.sum_congr rfl
          intro v _
          apply Finset.sum_congr rfl
          intro u _
          exact hanti u v
      _ = -(∑ v ∈ A, ∑ u ∈ A, f v u) := by
          rw [← Finset.sum_neg_distrib]
          apply Finset.sum_congr rfl
          intro v _
          rw [Finset.sum_neg_distrib]
  have h3 : (∑ v ∈ A, ∑ u ∈ A, f v u) = ∑ u ∈ A, ∑ v ∈ A, f u v := rfl
  omega

theorem sum_ite_and_filter (P Q : Node → Bool) (f : Node → Node → Int) :
    (∑ u : Node, ∑ v : Node, if P u = true ∧ Q v = true then f u v else 0)
      = ∑ u ∈ Finset.univ.filter (fun u => P u = true),
          ∑ v ∈ Finset.univ.filter (fun v => Q v = true), f u v := by
  rw [Finset.sum_filter]
  apply Finset.sum_congr rfl
  intro u _
  rw [Finset.sum_filter]
  by_cases hp : P u = true
  · rw [if_pos hp]
    apply Finset.sum_congr rfl
    intro v _
    by_cases hq : Q v = true
    · rw [if_pos hq, if_pos ⟨hp, hq⟩]
    · rw [if_neg hq, if_neg (fun hc => hq hc.2)]
  · rw [if_neg hp]
    rw [Finset.sum_eq_zero]
    intro v _
    rw [if_neg (fun hc => hp hc.1)]

theorem sum_ite_and_filter_neg (P Q : Node → Bool) (f : Node → Node → Int) :
    (∑ u : Node, ∑ v : Node, if P u = true ∧ Q v = false then f u v else 0)
      = ∑ u ∈ Finset.univ.filter (fun u => P u = true),
          ∑ v ∈ Finset.univ.filter (fun v => ¬ (Q v = true)), f u v := by
  rw [Finset.sum_filter]
  apply Finset.sum_congr rfl
  intro u _
  rw [Finset.sum_filter]
  by_cases hp : P u = true
  · rw [if_pos hp]
    apply Finset.sum_congr rfl
    intro v _
    by_cases hq : Q v = true
    · simp [hq]
    · have hq' : Q v = false := by
        revert hq
        cases Q v <;> simp
      simp [hp, hq']
  · rw [if_neg hp]
    rw [Finset.sum_eq_zero]
    intro v _
    rw [if_neg (fun hc => hp hc.1)]

/-- At the end of the run, the accumulated flow equals the capacity of the
cut given by final-residual-graph reachability. -/
theorem finalState_cut (g0 gf : Graph) (flow : Int) (ap : Parents)
    (hinv : FFInv g0 ⟨gf, ap, flow⟩)
    (hnf : (bfsRun gf ap).trav.get TARGET_NODE_ID = false)
    (hinit : ∀ u v, resCap g0 u v = origCap g0 u v) :
    flow = ∑ u : Node, ∑ v : Node,
      (if (bfsRun gf initParents).trav.get u = true
          ∧ (bfsRun gf initParents).trav.get v = false
       then origCap g0 u v else 0) := by
  have horig : ∀ u v, origCap gf u v = origCap g0 u v := hinv.1
  have hnn : ∀ u v, 0 ≤ resCap gf u v := hinv.2.1
  have hpair : ∀ u v, resCap gf u v + resCap gf v u = resCap g0 u v + resCap g0 v u :=
    hinv.2.2.1
  have hcons : ∀ n : Node, n ≠ SOURCE_NODE_ID → n ≠ TARGET_NODE_ID →
      (∑ u : Node, pushedFlow g0 gf u n) = 0 := hinv.2.2.2.1
  have hval : (∑ v : Node, pushedFlow g0 gf SOURCE_NODE_ID v) = flow := hinv.2.2.2.2
  have hS5 : (bfsRun gf initParents).trav.get TARGET_NODE_ID = false := by
    rw [← bfsRun_trav_indep gf ap initParents]
    exact hnf
  have hS0 : (bfsRun gf initParents).trav.get SOURCE_NODE_ID = true :=
    bfsRun_source gf initParents
  have hanti : ∀ u v, pushedFlow g0 gf u v = -pushedFlow g0 gf v u := by
    intro u v
    have := hpair u v
    unfold pushedFlow
    omega
  have htotal : (∑ n : Node, ∑ u : Node, pushedFlow g0 gf u n) = 0 := by
    have h := antisym_sum_zero (pushedFlow g0 gf) hanti Finset.univ
    calc (∑ n : Node, ∑ u : Node, pushedFlow g0 gf u n)
        = ∑ u : Node, ∑ n : Node, pushedFlow g0 gf u n := Finset.sum_comm
      _ = 0 := h
  have hcol0 : (∑ u : Node, pushedFlow g0 gf u SOURCE_NODE_ID) = -flow := by
    have h : (∑ u : Node, pushedFlow g0 gf u SOURCE_NODE_ID)
        = ∑ u : Node, -pushedFlow g0 gf SOURCE_NODE_ID u := by
      apply Finset.sum_congr rfl
      intro u _
      rw [hanti]
    rw [h, Finset.sum_neg_distrib, hval]
  have hsix : (∑ u : Node, pushedFlow g0 gf u 0) + (∑ u : Node, pushedFlow g0 gf u 1)
      + (∑ u : Node, pushedFlow g0 gf u 2) + (∑ u : Node, pushedFlow g0 gf u 3)
      + (∑ u : Node, pushedFlow g0 gf u 4) + (∑ u : Node, pushedFlow g0 gf u 5) = 0 :=
    (Fin.sum_univ_six (fun n => ∑ u : Node, pushedFlow g0 gf u n)).symm.trans htotal
  have hcolT : (∑ u : Node, pushedFlow g0 gf u TARGET_NODE_ID) = flow := by
    have h1 := hcons 1 (by decide) (by decide)
    have h2 := hcons 2 (by decide) (by decide)
    have h3 := hcons 3 (by decide) (by decide)
    have h4 := hcons 4 (by decide) (by decide)
    have h0 : (∑ u : Node, pushedFlow g0 gf u (0 : Node)) = -flow := hcol0
    show (∑ u : Node, pushedFlow g0 gf u (5 : Node)) = flow
    omega
  have hclosed0 : ∀ u v : Node, (bfsRun gf initParents).trav.get u = true →
      ¬ ((bfsRun gf initParents).trav.get v = true) → resCap gf u v = 0 := by
    intro u v hu hv
    by_cases hr : 0 < resCap gf u v
    · exact absurd (bfsRun_closed gf initParents u v hu hr) hv
    · have := hnn u v
      omega
  rw [sum_ite_and_filter_neg (fun u => (bfsRun gf initParents).trav.get u)
    (fun v => (bfsRun gf initParents).trav.get v) (origCap g0)]
  have hTmem : TARGET_NODE_ID ∈ Finset.univ.filter
      (fun v => ¬ ((bfsRun gf initParents).trav.get v = true)) := by
    rw [Finset.mem_filter]
    refine ⟨Finset.mem_univ _, ?_⟩
    rw [hS5]
    exact Bool.false_ne_true
  have hstep1 : (∑ n ∈ Finset.univ.filter
        (fun v => ¬ ((bfsRun gf initParents).trav.get v = true)),
      ∑ u : Node, pushedFlow g0 gf u n) = flow := by
    rw [Finset.sum_eq_single_of_mem TARGET_NODE_ID hTmem ?_]
    · exact hcolT
    · intro n hn hne
      apply hcons n ?_ hne
      intro h0
      have := (Finset.mem_filter.mp hn).2
      rw [h0] at this
      exact this hS0
  have hstep2 : (∑ n ∈ Finset.univ.filter
        (fun v => ¬ ((bfsRun gf initParents).trav.get v = true)),
      ∑ u : Node, pushedFlow g0 gf u n)
      = (∑ n ∈ Finset.univ.filter
          (fun v => ¬ ((bfsRun gf initParents).trav.get v = true)),
         ∑ u ∈ Finset.univ.filter (fun u => (bfsRun gf initParents).trav.get u = true),
           pushedFlow g0 gf u n)
        + (∑ n ∈ Finset.univ.filter
            (fun v => ¬ ((bfsRun gf initParents).trav.get v = true)),
           ∑ u ∈ Finset.univ.filter
             (fun v => ¬ ((bfsRun gf initParents).trav.get v = true)),
             pushedFlow g0 gf u n) := by
    rw [← Finset.sum_add_distrib]
    apply Finset.sum_congr rfl
    intro n _
    exact (Finset.sum_filter_add_sum_filter_not Finset.univ
      (fun u => (bfsRun gf initParents).trav.get u = true) _).symm
  have hzero : (∑ n ∈ Finset.univ.filter
        (fun v => ¬ ((bfsRun gf initParents).trav.get v = true)),
      ∑ u ∈ Finset.univ.filter
        (fun v => ¬ ((bfsRun gf initParents).trav.get v = true)),
        pushedFlow g0 gf u n) = 0 := by
    have h := antisym_sum_zero (pushedFlow g0 gf) hanti
      (Finset.univ.filter (fun v => ¬ ((bfsRun gf initParents).trav.get v = true)))
    calc (∑ n ∈ Finset.univ.filter
          (fun v => ¬ ((bfsRun gf initParents).trav.get v = true)),
        ∑ u ∈ Finset.univ.filter
          (fun v => ¬ ((bfsRun gf initParents).trav.get v = true)),
          pushedFlow g0 gf u n)
        = ∑ u ∈ Finset.univ.filter
            (fun v => ¬ ((bfsRun gf initParents).trav.get v = true)),
          ∑ n ∈ Finset.univ.filter
            (fun v => ¬ ((bfsRun gf initParents).trav.get v = true)),
            pushedFlow g0 gf u n := Finset.sum_comm
      _ = 0 := h
  have hcross : (∑ n ∈ Finset.univ.filter
        (fun v => ¬ ((bfsRun gf initParents).trav.get v = true)),
      ∑ u ∈ Finset.univ.filter (fun u => (bfsRun gf initParents).trav.get u = true),
        pushedFlow g0 gf u n)
      = ∑ n ∈ Finset.univ.filter
          (fun v => ¬ ((bfsRun gf initParents).trav.get v = true)),
        ∑ u ∈ Finset.univ.filter (fun u => (bfsRun gf initParents).trav.get u = true),
          origCap g0 u n := by
    apply Finset.sum_congr rfl
    intro n hn
    apply Finset.sum_congr rfl
    intro u hu
    have hu' := (Finset.mem_filter.mp hu).2
    have hn' := (Finset.mem_filter.mp hn).2
    have hres0 : resCap gf u n = 0 := hclosed0 u n hu' hn'
    unfold pushedFlow
    rw [hres0, hinit]
    ring
  rw [Finset.sum_comm]
  rw [← hcross]
  have := hstep2.symm.trans hstep1
  omega

/-- Weak duality: any feasible flow value is at most any s-t cut capacity. -/
theorem flow_value_le_cut (cap : Node → Node → Int) (f : Node → Node → Int) (S : Node → Bool)
    (hf : IsFlow cap f) (hS0 : S SOURCE_NODE_ID = true) (hS5 : S TARGET_NODE_ID = false) :
    flowValue f ≤ ∑ u : Node, ∑ v : Node, if S u = true ∧ S v = false then cap u v else 0 := by
  obtain ⟨hbound, hcons⟩ := hf
  rw [sum_ite_and_filter_neg S S cap]
  have hnet : (∑ n ∈ Finset.univ.filter (fun u => S u = true),
      ((∑ v : Node, f n v) - ∑ u : Node, f u n)) = flowValue f := by
    rw [Finset.sum_eq_single_of_mem SOURCE_NODE_ID
      (Finset.mem_filter.mpr ⟨Finset.mem_univ _, hS0⟩) ?_]
    · rfl
    · intro n hn hne
      have hnt : n ≠ TARGET_NODE_ID := by
        intro he
        have := (Finset.mem_filter.mp hn).2
        rw [he, hS5] at this
        exact Bool.false_ne_true this
      rw [hcons n hne hnt]
      ring
  have hsplitOut : (∑ n ∈ Finset.univ.filter (fun u => S u = true), ∑ v : Node, f n v)
      = (∑ n ∈ Finset.univ.filter (fun u => S u = true),
          ∑ v ∈ Finset.univ.filter (fun u => S u = true), f n v)
        + (∑ n ∈ Finset.univ.filter (fun u => S u = true),
            ∑ v ∈ Finset.univ.filter (fun u => ¬ (S u = true)), f n v) := by
    rw [← Finset.sum_add_distrib]
    apply Finset.sum_congr rfl
    intro n _
    exact (Finset.sum_filter_add_sum_filter_not Finset.univ (fun u => S u = true) _).symm
  have hsplitIn : (∑ n ∈ Finset.univ.filter (fun u => S u = true), ∑ u : Node, f u n)
      = (∑ n ∈ Finset.univ.filter (fun u => S u = true),
          ∑ u ∈ Finset.univ.filter (fun u => S u = true), f u n)
        + (∑ n ∈ Finset.univ.filter (fun u => S u = true),
            ∑ u ∈ Finset.univ.filter (fun u => ¬ (S u = true)), f u n) := by
    rw [← Finset.sum_add_distrib]
    apply Finset.sum_congr rfl
    intro n _
    exact (Finset.sum_filter_add_sum_filter_not Finset.univ (fun u => S u = true) _).symm
  have hAA : (∑ n ∈ Finset.univ.filter (fun u => S u = true),
      ∑ v ∈ Finset.univ.filter (fun u => S u = true), f n v)
      = ∑ n ∈ Finset.univ.filter (fun u => S u = true),
          ∑ u ∈ Finset.univ.filter (fun u => S u = true), f u n := Finset.sum_comm
  have hDnn : 0 ≤ ∑ n ∈ Finset.univ.filter (fun u => S u = true),
      ∑ u ∈ Finset.univ.filter (fun u => ¬ (S u = true)), f u n := by
    apply Finset.sum_nonneg
    intro n _
    apply Finset.sum_nonneg
    intro u _
    exact (hbound u n).1
  have hBle : (∑ n ∈ Finset.univ.filter (fun u => S u = true),
      ∑ v ∈ Finset.univ.filter (fun u => ¬ (S u = true)), f n v)
      ≤ ∑ n ∈ Finset.univ.filter (fun u => S u = true),
          ∑ v ∈ Finset.univ.filter (fun u => ¬ (S u = true)), cap n v := by
    apply Finset.sum_le_sum
    intro n _
    apply Finset.sum_le_sum
    intro v _
    exact (hbound n v).2
  have hexp : flowValue f = (∑ n ∈ Finset.univ.filter (fun u => S u = true),
      ∑ v ∈ Finset.univ.filter (fun u => ¬ (S u = true)), f n v)
      - (∑ n ∈ Finset.univ.filter (fun u => S u = true),
          ∑ u ∈ Finset.univ.filter (fun u => ¬ (S u = true)), f u n) := by
    rw [← hnet, Finset.sum_sub_distrib, hsplitOut, hsplitIn, hAA]
    ring
  omega

theorem max_neg_eq (a : Int) : max (-a) 0 = max a 0 - a := by
  rcases le_total 0 a with h | h
  · rw [max_eq_right (neg_nonpos.mpr h), max_eq_left h]
    ring
  · rw [max_eq_left (neg_nonneg.mpr h), max_eq_right h]
    ring

/-- The positive part of the pushed flow is a feasible flow achieving the
returned value. -/
theorem finalState_isFlow (g0 gf : Graph) (flow : Int) (ap : Parents)
    (hinv : FFInv g0 ⟨gf, ap, flow⟩)
    (hinit : ∀ u v, resCap g0 u v = origCap g0 u v)
    (h0 : ∀ u v, 0 ≤ origCap g0 u v) :
    IsFlow (origCap g0) (fun u v => max (pushedFlow g0 gf u v) 0) ∧
    flowValue (fun u v => max (pushedFlow g0 gf u v) 0) = flow := by
  have hnn : ∀ u v, 0 ≤ resCap gf u v := hinv.2.1
  have hpair : ∀ u v, resCap gf u v + resCap gf v u = resCap g0 u v + resCap g0 v u :=
    hinv.2.2.1
  have hcons : ∀ n : Node, n ≠ SOURCE_NODE_ID → n ≠ TARGET_NODE_ID →
      (∑ u : Node, pushedFlow g0 gf u n) = 0 := hinv.2.2.2.1
  have hval : (∑ v : Node, pushedFlow g0 gf SOURCE_NODE_ID v) = flow := hinv.2.2.2.2
  have hanti : ∀ u v, pushedFlow g0 gf u v = -pushedFlow g0 gf v u := by
    intro u v
    have := hpair u v
    unfold pushedFlow
    omega
  have hkey : ∀ u v, max (pushedFlow g0 gf u v) 0
      = max (pushedFlow g0 gf v u) 0 - pushedFlow g0 gf v u := by
    intro u v
    rw [hanti u v, max_neg_eq]
  have hflip : ∀ n : Node, (∑ v : Node, max (pushedFlow g0 gf n v) 0)
      = (∑ v : Node, max (pushedFlow g0 gf v n) 0) - ∑ v : Node, pushedFlow g0 gf v n := by
    intro n
    rw [← Finset.sum_sub_distrib]
    apply Finset.sum_congr rfl
    intro v _
    exact hkey n v
  refine ⟨⟨?_, ?_⟩, ?_⟩
  · intro u v
    constructor
    · exact le_max_right _ _
    · apply max_le
      · unfold pushedFlow
        have := hnn u v
        have := hinit u v
        omega
      · exact h0 u v
  · intro n hns hnt
    rw [hflip n, hcons n hns hnt]
    ring
  · show (∑ v : Node, max (pushedFlow g0 gf SOURCE_NODE_ID v) 0)
        - (∑ u : Node, max (pushedFlow g0 gf u SOURCE_NODE_ID) 0) = flow
    have h1 : (∑ u : Node, max (pushedFlow g0 gf u SOURCE_NODE_ID) 0)
        = (∑ u : Node, max (pushedFlow g0 gf SOURCE_NODE_ID u) 0)
          - ∑ u : Node, pushedFlow g0 gf SOURCE_NODE_ID u := by
      rw [← Finset.sum_sub_distrib]
      apply Finset.sum_congr rfl
      intro u _
      rw [hkey u SOURCE_NODE_ID]
    rw [h1, hval]
    ring

/-! ### Partition membership and the `findMinCut` output -/

theorem mem_bfsPartition_left (g : Graph) (i : Node) :
    i ∈ (bfsPartition g).1 ↔ (bfsRun g initParents).trav.get i = true := by
  unfold bfsPartition
  simp [List.mem_filter, List.mem_finRange]

theorem mem_bfsPartition_right (g : Graph) (i : Node) :
    i ∈ (bfsPartition g).2 ↔ (bfsRun g initParents).trav.get i = false := by
  unfold bfsPartition
  simp [List.mem_filter, List.mem_finRange, Bool.not_eq_true']

theorem findMinCut_found (g : Graph) (h : bfsFound g initParents = true) :
    findMinCut g = none := by
  unfold findMinCut
  rw [if_pos h]

theorem findMinCut_not_found (g : Graph) (h : bfsFound g initParents = false) :
    findMinCut g = some (bfsPartition g) := by
  unfold findMinCut
  rw [if_neg (by rw [h]; exact Bool.false_ne_true)]

/-! ### Invariants hold at every reachable state of the loop -/

theorem reachesFF_inv (g0 : Graph) (h0 : ∀ u v, 0 ≤ resCap g0 u v) :
    ∀ st : FFSt, ReachesFF g0 st → FFInv g0 st := by
  intro st h
  induction h with
  | init => exact ffInit_inv g0 h0
  | step st edges _ hf hpe ih => exact (ffStep_facts g0 st edges hf hpe ih).1

/-! ### The concrete run on the hardcoded graph, one iteration at a time -/

theorem mainRun_eq : fordFulkerson inputGraph 20 = some (19, ffState5.graph) :=
  calc fordFulkerson inputGraph 20
      = ffLoop 20 (ffInit inputGraph) := rfl
    _ = ffLoop 19 (ffIter (ffInit inputGraph) pathList0) :=
        ffLoop_found_step 19 (ffInit inputGraph) pathList0 (by decide) (by decide)
    _ = ffLoop 19 ffState1 := congrArg (ffLoop 19) (by decide)
    _ = ffLoop 18 (ffIter ffState1 pathList1) :=
        ffLoop_found_step 18 ffState1 pathList1 (by decide) (by decide)
    _ = ffLoop 18 ffState2 := congrArg (ffLoop 18) (by decide)
    _ = ffLoop 17 (ffIter ffState2 pathList2) :=
        ffLoop_found_step 17 ffState2 pathList2 (by decide) (by decide)
    _ = ffLoop 17 ffState3 := congrArg (ffLoop 17) (by decide)
    _ = ffLoop 16 (ffIter ffState3 pathList3) :=
        ffLoop_found_step 16 ffState3 pathList3 (by decide) (by decide)
    _ = ffLoop 16 ffState4 := congrArg (ffLoop 16) (by decide)
    _ = ffLoop 15 (ffIter ffState4 pathList4) :=
        ffLoop_found_step 15 ffState4 pathList4 (by decide) (by decide)
    _ = ffLoop 15 ffState5 := congrArg (ffLoop 15) (by decide)
    _ = some (19, ffState5.graph) := ffLoop_not_found 15 ffState5 (by decide)

/-! ## The claims -/

/-- **C1** (corrected). On the hardcoded six-node graph of `main`
(capacities s→w=4, s→x=7, s→z=10, w→y=2, w→t=10, x→w=2, x→z=2, x→y=10,
z→y=2, z→t=6, y→t=7, source 0, sink 5), `fordFulkerson` returns 19 — not
14 as the spec claims — and the minimum cut determined by the final
residual graph ({s, z} versus the rest) also has value 19. -/
theorem c1_hardcoded_graph_flow :
    fordFulkerson inputGraph 20 = some (19, ffState5.graph) ∧
    cutCapacity ffState5.graph
      (fun i => (bfsRun ffState5.graph initParents).trav.get i) = 19 ∧
    findMinCut ffState5.graph = some ([0, 3], [1, 2, 4, 5]) :=
  ⟨mainRun_eq, by decide, by decide⟩

/-- **C1**, counterexample to the claim as stated: the flow value returned
by `fordFulkerson` on the hardcoded graph is 19, which is not 14, and the
partition produced on the final residual graph has cut value 19, not 14. -/
theorem c1_hardcoded_graph_flow_counterexample :
    (fordFulkerson inputGraph 20).map Prod.fst = some 19 ∧
    ¬ (fordFulkerson inputGraph 20).map Prod.fst = some 14 ∧
    ¬ cutCapacity ffState5.graph
      (fun i => (bfsRun ffState5.graph initParents).trav.get i) = 14 := by
  have h := mainRun_eq
  refine ⟨by rw [h]; rfl, by rw [h]; decide, by decide⟩

/-- **C2** (confirmed). For every residual graph with non-negative
capacities (residuals initialized to the originals), when `fordFulkerson`
returns: its value is an upper bound on the value of every feasible flow
and is attained by one (so it is the maximum flow value), it equals the
capacity of the cut given by the reachable set of the final residual
graph, and `findMinCut` on that graph emits exactly that partition. -/
theorem c2_maxflow_mincut_duality (g0 : Graph) (fuel : Nat) (flow : Int) (gf : Graph)
    (hcap : ∀ u v, 0 ≤ origCap g0 u v)
    (hinit : ∀ u v, resCap g0 u v = origCap g0 u v)
    (hrun : fordFulkerson g0 fuel = some (flow, gf)) :
    (∀ f, IsFlow (origCap g0) f → flowValue f ≤ flow) ∧
    (∃ f, IsFlow (origCap g0) f ∧ flowValue f = flow) ∧
    flow = cutCapacity gf (fun i => (bfsRun gf initParents).trav.get i) ∧
    findMinCut gf = some (bfsPartition gf) := by
  have hres0 : ∀ u v, 0 ≤ resCap g0 u v := by
    intro u v
    rw [hinit u v]
    exact hcap u v
  obtain ⟨ap, hinv, hnf⟩ :=
    ffLoop_some_inv g0 fuel (ffInit g0) flow gf (ffInit_inv g0 hres0) hrun
  have horig : ∀ u v, origCap gf u v = origCap g0 u v := hinv.1
  have hcut := finalState_cut g0 gf flow ap hinv hnf hinit
  have hcc : cutCapacity gf (fun i => (bfsRun gf initParents).trav.get i)
      = ∑ u : Node, ∑ v : Node,
          (if (bfsRun gf initParents).trav.get u = true
              ∧ (bfsRun gf initParents).trav.get v = false
           then origCap g0 u v else 0) := by
    unfold cutCapacity
    refine Finset.sum_congr rfl fun u _ => Finset.sum_congr rfl fun v _ => ?_
    rw [horig u v]
  have hS5 : (bfsRun gf initParents).trav.get TARGET_NODE_ID = false := by
    rw [bfsRun_trav_indep gf initParents ap]
    exact hnf
  refine ⟨?_, ?_, ?_, ?_⟩
  · intro f hf
    have hle := flow_value_le_cut (origCap g0) f
      (fun i => (bfsRun gf initParents).trav.get i) hf
      (bfsRun_source gf initParents) hS5
    rw [← hcut] at hle
    exact hle
  · obtain ⟨hflow, hval⟩ := finalState_isFlow g0 gf flow ap hinv hinit hcap
    exact ⟨_, hflow, hval⟩
  · rw [hcc]
    exact hcut
  · apply findMinCut_not_found
    unfold bfsFound
    exact hS5

/-- **C2**, witness at the hardcoded graph: its capacities are
non-negative and properly initialized, the run returns flow 19 with the
final graph `ffState5.graph`, and the conclusion holds there. -/
theorem c2_maxflow_mincut_duality_witness :
    (∀ u v, 0 ≤ origCap inputGraph u v) ∧
    (∀ u v, resCap inputGraph u v = origCap inputGraph u v) ∧
    ((∀ f, IsFlow (origCap inputGraph) f → flowValue f ≤ 19) ∧
     (∃ f, IsFlow (origCap inputGraph) f ∧ flowValue f = 19) ∧
     (19 : Int) = cutCapacity ffState5.graph
        (fun i => (bfsRun ffState5.graph initParents).trav.get i) ∧
     findMinCut ffState5.graph = some (bfsPartition ffState5.graph)) :=
  ⟨by decide, by decide,
   c2_maxflow_mincut_duality inputGraph 20 19 ffState5.graph
     (by decide) (by decide) mainRun_eq⟩

/-- **C3** (confirmed). On every residual graph with non-negative
capacities the augmentation loop terminates: fuel exceeding the total
residual capacity out of the source suffices for `fordFulkerson` to
return, and every augmentation the loop performs adds a strictly
positive integer bottleneck to the total flow. -/
theorem c3_loop_terminates (g0 : Graph)
    (hres : ∀ u v, 0 ≤ resCap g0 u v) :
    (∃ r, fordFulkerson g0 ((rowRes g0 SOURCE_NODE_ID).toNat + 1) = some r) ∧
    (∀ (st : FFSt) (edges : List (Node × Node)), ReachesFF g0 st →
      (bfsRun st.graph st.augmentingPath).trav.get TARGET_NODE_ID = true →
      pathEdges (bfsRun st.graph st.augmentingPath).par NODE_COUNT TARGET_NODE_ID
        = some edges →
      1 ≤ minFlowInPath st.graph edges ∧
      (ffIter st edges).max_flow = st.max_flow + minFlowInPath st.graph edges) := by
  constructor
  · exact ffLoop_terminates g0 ((rowRes g0 SOURCE_NODE_ID).toNat + 1) (ffInit g0)
      (ffInit_inv g0 hres) (Nat.lt_succ_self _)
  · intro st edges _ hf hpe
    obtain ⟨edges', hpe', hcs, _⟩ := bfs_chain st.graph st.augmentingPath hf
    rw [hpe] at hpe'
    have hee : edges = edges' := Option.some.inj hpe'
    subst hee
    have hpos : 0 < minFlowInPath st.graph edges :=
      minFlowInPath_pos st.graph edges (fun pc hpc => (hcs.1 pc hpc).2.2.1)
    exact ⟨by omega, rfl⟩

/-- **C3**, witness at the hardcoded graph: its residual capacities are
non-negative, and the loop returns within the produced fuel bound while
all its augmentations are strictly positive. -/
theorem c3_loop_terminates_witness :
    (∀ u v, 0 ≤ resCap inputGraph u v) ∧
    ((∃ r, fordFulkerson inputGraph
        ((rowRes inputGraph SOURCE_NODE_ID).toNat + 1) = some r) ∧
     (∀ (st : FFSt) (edges : List (Node × Node)), ReachesFF inputGraph st →
       (bfsRun st.graph st.augmentingPath).trav.get TARGET_NODE_ID = true →
       pathEdges (bfsRun st.graph st.augmentingPath).par NODE_COUNT TARGET_NODE_ID
         = some edges →
       1 ≤ minFlowInPath st.graph edges ∧
       (ffIter st edges).max_flow = st.max_flow + minFlowInPath st.graph edges)) :=
  ⟨by decide, c3_loop_terminates inputGraph (by decide)⟩

/-- **C4** (confirmed). When `findMinCut` is invoked on a residual graph
that still has an augmenting path (the sink is reachable from the source
over positive-residual edges), it reports failure and emits no partition
(modelled as `none`, distinguishable from every valid `some` result);
when there is no augmenting path it emits the partition. -/
theorem c4_findMinCut_precondition (g : Graph) :
    (Reach g TARGET_NODE_ID → findMinCut g = none) ∧
    (¬ Reach g TARGET_NODE_ID → findMinCut g = some (bfsPartition g)) := by
  constructor
  · intro hr
    apply findMinCut_found
    unfold bfsFound
    exact bfsRun_complete g initParents TARGET_NODE_ID hr
  · intro hr
    apply findMinCut_not_found
    unfold bfsFound
    cases hb : (bfsRun g initParents).trav.get TARGET_NODE_ID with
    | false => rfl
    | true => exact absurd (bfsRun_sound g initParents TARGET_NODE_ID hb) hr

/-- **C5** (confirmed). In each iteration of `fordFulkerson` after a
successful `bfs`: the bottleneck is the minimum residual capacity over
the parent-chain edges starting from `INT_MAX`; each chain edge's forward
residual capacity drops by exactly the bottleneck, the reverse entry
rises by exactly the bottleneck, the child's parent pointer is reset to
`INVALID_PARENT`, and entries on no chain edge are unchanged. -/
theorem c5_iteration_updates (g : Graph) (ap : Parents)
    (h : (bfsRun g ap).trav.get TARGET_NODE_ID = true) :
    BottleneckSpec g ap := by
  obtain ⟨edges, hpe, hcs, _⟩ := bfs_chain g ap h
  have hnd : edges.Nodup := hcs.2.2.2.2.1
  have hnoself : ∀ pc ∈ edges, pc.1 ≠ pc.2 ∧ (pc.2, pc.1) ∉ edges := hcs.2.2.2.2.2
  have hrev : ∀ pc ∈ edges, (pc.2, pc.1) ∉ edges := fun pc hpc => (hnoself pc hpc).2
  refine ⟨edges, hpe, chain_ne_nil g (bfsRun g ap) edges hcs,
    minFlowInPath_le g edges, minFlowInPath_attained g edges, ?_, ?_⟩
  · intro pc hpc
    refine ⟨augment_res_fwd g _ edges hnd hrev pc hpc,
      augment_res_bwd g _ edges hnd hrev pc hpc, ?_⟩
    exact resetParents_mem edges (bfsRun g ap).par pc.2
      (List.mem_map_of_mem Prod.snd hpc)
  · intro a b ha hb
    exact augment_res_untouched g _ edges a b ha hb

/-- **C5**, witness at the hardcoded graph with the fresh parent buffer:
the initial `bfs` finds the sink, and the iteration behaves as stated. -/
theorem c5_iteration_updates_witness :
    (bfsRun inputGraph initParents).trav.get TARGET_NODE_ID = true ∧
    BottleneckSpec inputGraph initParents :=
  ⟨by decide, c5_iteration_updates inputGraph initParents (by decide)⟩

/-- **C6** (corrected). The claimed bound `0 ≤ edgeFlow(u,v) ≤
originalCapacity(u,v)` fails in general for graphs with antiparallel
edge pairs (see the counterexample); it does hold — along with
non-negativity of every residual capacity — throughout the run for
graphs with non-negative capacities, properly initialized residuals and
no antiparallel pair of real edges. -/
theorem c6_flow_bounds (g0 : Graph) (st : FFSt)
    (hcap : ∀ u v, 0 ≤ origCap g0 u v)
    (hinit : ∀ u v, resCap g0 u v = origCap g0 u v)
    (hanti : ∀ u v, 0 < origCap g0 u v → origCap g0 v u = 0)
    (hreach : ReachesFF g0 st) :
    (∀ u v, 0 ≤ resCap st.graph u v) ∧
    (∀ u v, 0 < origCap g0 u v →
      0 ≤ edgeFlow st.graph u v ∧ edgeFlow st.graph u v ≤ origCap g0 u v) := by
  have hres0 : ∀ u v, 0 ≤ resCap g0 u v := by
    intro u v
    rw [hinit u v]
    exact hcap u v
  have hinv := reachesFF_inv g0 hres0 st hreach
  have horig : ∀ u v, origCap st.graph u v = origCap g0 u v := hinv.1
  have hnn : ∀ u v, 0 ≤ resCap st.graph u v := hinv.2.1
  have hpair : ∀ u v, resCap st.graph u v + resCap st.graph v u
      = resCap g0 u v + resCap g0 v u := hinv.2.2.1
  refine ⟨hnn, ?_⟩
  intro u v hpos
  have h1 : edgeFlow st.graph u v = origCap st.graph u v - resCap st.graph u v := rfl
  rw [horig u v] at h1
  have h2 := hpair u v
  have h3 : resCap g0 u v = origCap g0 u v := hinit u v
  have h4 : resCap g0 v u = origCap g0 v u := hinit v u
  have h5 : origCap g0 v u = 0 := hanti u v hpos
  have h6 := hnn u v
  have h7 := hnn v u
  rw [h1]
  omega

/-- **C6**, counterexample to the claim as stated: `gBad` has
non-negative capacities with residuals initialized to the originals, the
entry `(2, 1)` is a real edge of capacity 1, yet after `fordFulkerson`
completes its derived flow `originalCapacity − residualCapacity` is
`-1`, which is negative (the augmenting path `0 → 1 → 2 → 5` raises the
back entry `(2, 1)` above its original capacity). -/
theorem c6_flow_bounds_counterexample :
    (∀ u v, 0 ≤ origCap gBad u v) ∧
    (∀ u v, resCap gBad u v = origCap gBad u v) ∧
    origCap gBad 2 1 = 1 ∧
    (fordFulkerson gBad 5).map (fun r => edgeFlow r.2 2 1) = some (-1) ∧
    ¬ (0 : Int) ≤ -1 :=
  ⟨by decide, by decide, by decide, by decide, by decide⟩

/-- **C6**, witness for the amended statement: the hardcoded graph has
no antiparallel pair of real edges, and at the initial loop state the
bounds hold. -/
theorem c6_flow_bounds_witness :
    ((∀ u v, 0 ≤ origCap inputGraph u v) ∧
     (∀ u v, resCap inputGraph u v = origCap inputGraph u v) ∧
     (∀ u v, 0 < origCap inputGraph u v → origCap inputGraph v u = 0)) ∧
    ((∀ u v, 0 ≤ resCap (ffInit inputGraph).graph u v) ∧
     (∀ u v, 0 < origCap inputGraph u v →
       0 ≤ edgeFlow (ffInit inputGraph).graph u v ∧
       edgeFlow (ffInit inputGraph).graph u v ≤ origCap inputGraph u v)) :=
  ⟨⟨by decide, by decide, by decide⟩,
   c6_flow_bounds inputGraph (ffInit inputGraph)
     (by decide) (by decide) (by decide) (ReachesFF.init)⟩

/-- **C7** (confirmed). `bfs` returns `true` iff the sink is reachable
from the source over strictly positive residual entries (for every
parent buffer), and in partition mode every node id lands in the
reachable buffer iff it is reachable and in the unreachable buffer iff
it is not, regardless of whether the sink was reached. -/
theorem c7_bfs_return_and_partition (g : Graph) (ap : Parents) (i : Node) :
    (bfsFound g ap = true ↔ Reach g TARGET_NODE_ID) ∧
    (i ∈ (bfsPartition g).1 ↔ Reach g i) ∧
    (i ∈ (bfsPartition g).2 ↔ ¬ Reach g i) := by
  refine ⟨?_, ?_, ?_⟩
  · exact bfsRun_trav_iff_reach g ap TARGET_NODE_ID
  · rw [mem_bfsPartition_left]
    exact bfsRun_trav_iff_reach g initParents i
  · rw [mem_bfsPartition_right]
    constructor
    · intro hf hr
      rw [bfsRun_complete g initParents i hr] at hf
      cases hf
    · intro hr
      cases hb : (bfsRun g initParents).trav.get i with
      | false => rfl
      | true => exact absurd (bfsRun_sound g initParents i hb) hr

/-- **C8** (corrected). The claimed conservation over each interior
node's incoming versus outgoing *real* edges fails in general for
graphs with antiparallel edge pairs (see the counterexample); it holds
after `fordFulkerson` completes on a graph with non-negative capacities,
properly initialized residuals and no antiparallel pair of real edges:
at every node other than the source and the sink, the sum of derived
flows `originalCapacity − residualCapacity` over the incoming real
edges equals the sum over the outgoing real edges. -/
theorem c8_flow_conservation (g0 : Graph) (fuel : Nat) (flow : Int) (gf : Graph)
    (hcap : ∀ u v, 0 ≤ origCap g0 u v)
    (hinit : ∀ u v, resCap g0 u v = origCap g0 u v)
    (hanti : ∀ u v, 0 < origCap g0 u v → origCap g0 v u = 0)
    (hrun : fordFulkerson g0 fuel = some (flow, gf)) :
    ∀ n : Node, n ≠ SOURCE_NODE_ID → n ≠ TARGET_NODE_ID →
      realInFlow g0 gf n = realOutFlow g0 gf n := by
  obtain ⟨ap, hinv, _⟩ := ffLoop_some_inv g0 fuel (ffInit g0) flow gf
    (ffInit_inv g0 (fun u v => by rw [hinit u v]; exact hcap u v)) hrun
  have horig : ∀ u v, origCap gf u v = origCap g0 u v := hinv.1
  have hnn : ∀ u v, 0 ≤ resCap gf u v := hinv.2.1
  have hpair : ∀ u v, resCap gf u v + resCap gf v u = resCap g0 u v + resCap g0 v u :=
    hinv.2.2.1
  have hcons : ∀ m : Node, m ≠ SOURCE_NODE_ID → m ≠ TARGET_NODE_ID →
      (∑ u : Node, pushedFlow g0 gf u m) = 0 := hinv.2.2.2.1
  intro n hs ht
  have hef : ∀ u v : Node, edgeFlow gf u v = pushedFlow g0 gf u v := by
    intro u v
    show origCap gf u v - resCap gf u v = resCap g0 u v - resCap gf u v
    rw [horig u v, hinit u v]
  have hpanti : ∀ u v : Node, pushedFlow g0 gf u v = -pushedFlow g0 gf v u := by
    intro u v
    have h2 := hpair u v
    show resCap g0 u v - resCap gf u v = -(resCap g0 v u - resCap gf v u)
    omega
  have hzero : ∀ u v : Node, ¬ 0 < origCap g0 u v → ¬ 0 < origCap g0 v u →
      pushedFlow g0 gf u v = 0 := by
    intro u v hu hv
    have h1 := hcap u v
    have h2 := hcap v u
    have h3 : origCap g0 u v = 0 := by omega
    have h4 : origCap g0 v u = 0 := by omega
    have h5 : resCap g0 u v = 0 := by rw [hinit u v, h3]
    have h6 : resCap g0 v u = 0 := by rw [hinit v u, h4]
    have h7 := hpair u v
    have h8 := hnn u v
    have h9 := hnn v u
    show resCap g0 u v - resCap gf u v = 0
    omega
  have hpoint : ∀ u : Node,
      pushedFlow g0 gf u n
        = (if 0 < origCap g0 u n then edgeFlow gf u n else 0)
          - (if 0 < origCap g0 n u then edgeFlow gf n u else 0) := by
    intro u
    by_cases h1 : 0 < origCap g0 u n
    · have h2 : ¬ 0 < origCap g0 n u := by
        rw [hanti u n h1]
        omega
      rw [if_pos h1, if_neg h2, hef u n]
      ring
    · by_cases h2 : 0 < origCap g0 n u
      · rw [if_neg h1, if_pos h2, hef n u, hpanti u n]
        ring
      · rw [if_neg h1, if_neg h2, hzero u n h1 h2]
        ring
  have hsum := hcons n hs ht
  rw [Finset.sum_congr rfl (fun u _ => hpoint u), Finset.sum_sub_distrib] at hsum
  show (∑ u : Node, if 0 < origCap g0 u n then edgeFlow gf u n else 0)
      = ∑ v : Node, if 0 < origCap g0 n v then edgeFlow gf n v else 0
  omega

/-- **C8**, counterexample to the claim as stated: `gBad` satisfies the
claim's hypotheses (non-negative capacities, residuals initialized to
the originals), node 1 is interior, yet after `fordFulkerson` completes
the sum of derived flows over its incoming real edges is 0 while the sum
over its outgoing real edges is 1 (the antiparallel pair `1 ↔ 2` makes
the real-edge sums differ). -/
theorem c8_flow_conservation_counterexample :
    (∀ u v, 0 ≤ origCap gBad u v) ∧
    (∀ u v, resCap gBad u v = origCap gBad u v) ∧
    (1 : Node) ≠ SOURCE_NODE_ID ∧ (1 : Node) ≠ TARGET_NODE_ID ∧
    (fordFulkerson gBad 5).map
      (fun r => (realInFlow gBad r.2 1, realOutFlow gBad r.2 1)) = some (0, 1) ∧
    (0 : Int) ≠ 1 :=
  ⟨by decide, by decide, by decide, by decide, by decide, by decide⟩

/-- **C8**, witness for the amended statement at the hardcoded graph,
which has no antiparallel pair of real edges: after the concrete run the
real-edge conservation identity holds at every interior node. -/
theorem c8_flow_conservation_witness :
    (∀ u v, 0 ≤ origCap inputGraph u v) ∧
    (∀ u v, resCap inputGraph u v = origCap inputGraph u v) ∧
    (∀ u v, 0 < origCap inputGraph u v → origCap inputGraph v u = 0) ∧
    (∀ n : Node, n ≠ SOURCE_NODE_ID → n ≠ TARGET_NODE_ID →
      realInFlow inputGraph ffState5.graph n
        = realOutFlow inputGraph ffState5.graph n) :=
  ⟨by decide, by decide, by decide,
   c8_flow_conservation inputGraph 20 19 ffState5.graph
     (by decide) (by decide) (by decide) mainRun_eq⟩

/-- **C9** (corrected). The code performs no validation of its input
invariants: with a negative capacity `-1` supplied on the edge from the
source to the sink, the computation does not fail fast — `fordFulkerson`
runs to completion returning flow 0 with the graph unchanged (the
negative entry is silently treated as a missing edge by the positivity
test of `bfs`), and `findMinCut` emits the partition `({0}, {1,2,3,4,5})`
with no diagnostic. -/
theorem c9_no_validation :
    origCap gNeg SOURCE_NODE_ID TARGET_NODE_ID = -1 ∧
    resCap gNeg SOURCE_NODE_ID TARGET_NODE_ID = -1 ∧
    fordFulkerson gNeg 5 = some (0, gNeg) ∧
    findMinCut gNeg = some ([0], [1, 2, 3, 4, 5]) :=
  ⟨by decide, by decide, by decide, by decide⟩

/-- **C9**, counterexample to the claim as stated: on a graph carrying a
negative construction-time capacity both `fordFulkerson` and
`findMinCut` return ordinary results (no failure value exists anywhere
in their types), so the violation is not detected or signalled. -/
theorem c9_no_validation_counterexample :
    origCap gNeg SOURCE_NODE_ID TARGET_NODE_ID < 0 ∧
    (∃ r, fordFulkerson gNeg 5 = some r) ∧
    (∃ pr, findMinCut gNeg = some pr) :=
  ⟨by decide, ⟨(0, gNeg), by decide⟩, ⟨([0], [1, 2, 3, 4, 5]), by decide⟩⟩

/-- **C10** (confirmed). Whenever `bfs` returns true in parent-tracking
mode, the parent-chain walks of `fordFulkerson` are safe: the walk
result depends only on the freshly assigned parent entries (any starting
parent buffer yields the same chain), every parent id read was assigned
during that `bfs` call, lies in `[0, NODE_COUNT)` and is never the
`INVALID_PARENT` sentinel, and the chain reaches the source without
revisiting a node. -/
theorem c10_parent_chain_safety (g : Graph) (ap : Parents)
    (h : (bfsRun g ap).trav.get TARGET_NODE_ID = true) :
    ChainSafe g ap := by
  obtain ⟨edges, hpe, hcs, hcong⟩ := bfs_chain g ap h
  refine ⟨edges, ?_, chain_ne_nil g (bfsRun g ap) edges hcs,
    hcs.2.2.2.1, hcs.2.2.1, ?_⟩
  · intro ap'
    apply hcong (bfsRun g ap').par
    intro w hw hwne
    exact ((bfsRun_lockstep g ap ap').2.2 w hwne hw).symm
  · intro pc hpc
    obtain ⟨h1, h2, _, h4⟩ := hcs.1 pc hpc
    refine ⟨h4, h1, h2, ?_, ?_, ?_⟩
    · rw [h4]
      omega
    · rw [h4]
      have := pc.1.isLt
      omega
    · rw [h4]
      show (pc.1.val : Int) ≠ -1
      omega

/-- **C10**, witness at the hardcoded graph with the fresh parent
buffer: the first `bfs` finds the sink and the chain walk is safe. -/
theorem c10_parent_chain_safety_witness :
    (bfsRun inputGraph initParents).trav.get TARGET_NODE_ID = true ∧
    ChainSafe inputGraph initParents :=
  ⟨by decide, c10_parent_chain_safety inputGraph initParents (by decide)⟩
